/-
Formal model of the clarinet dependency resolver (src/types/project_config.rs)
and deployment pipeline (src/frontend/cli.rs), with theorems checking the
specification's claims about them.
-/
import Mathlib

namespace Clarinet

/-! ## Dependency graph (struct Graph, project_config.rs)

The Rust `Graph` is a `Vec<Vec<usize>>` adjacency list; node ids are the
positions.  `add_directed_edge(u, v)` records that contract `u` depends on
contract `v`. -/

abbrev Graph := List (List Nat)

deriving instance DecidableEq for Except

/-- Descendants of a node: the adjacency list entry (`get_node_descendants` /
the `if let Some(list) = graph.adjacency_list.get(tle_index)` access; a missing
entry behaves as an empty list). -/
def nbrs (g : Graph) (i : Nat) : List Nat := (g.get? i).getD []

/-- The walker's `has_node_descendants`: `adjacency_list[i].len() > 0`. -/
def has_node_descendants (g : Graph) (i : Nat) : Bool :=
  decide (0 < (nbrs g i).length)

/-- Edge relation of the graph: `edge g u v` holds when `u` depends on `v`,
i.e. `v` occurs in `u`'s adjacency list. -/
def edge (g : Graph) (u v : Nat) : Prop := v ∈ nbrs g u

instance (g : Graph) (u v : Nat) : Decidable (edge g u v) := by
  unfold edge; infer_instance

/-- Reflexive-transitive reachability along dependency edges. -/
def Reach (g : Graph) : Nat → Nat → Prop := Relation.ReflTransGen (edge g)

/-- A graph is acyclic when no dependency edge can be closed back into a
cycle. -/
def Acyclic (g : Graph) : Prop := ∀ u v, edge g u v → ¬ Reach g v u

/-- A node lies on a cycle or transitively depends on one. -/
def reachesCycle (g : Graph) (u : Nat) : Prop :=
  ∃ v w, Reach g u v ∧ edge g v w ∧ Reach g w v

/-- Well-formed graph: every recorded edge target is an existing node.  This
is the construction invariant of `MainConfig::ordered_contracts`, where every
edge target comes from the `lookup` table of node ids. -/
def WF (g : Graph) : Prop := ∀ l ∈ g, ∀ v ∈ l, v < g.length

instance (g : Graph) : Decidable (WF g) := by
  unfold WF; infer_instance

/-- Union of all adjacency-list entries of the graph. -/
def adjUnion (g : Graph) : Finset Nat :=
  g.foldr (fun l acc => l.toFinset ∪ acc) ∅

/-- All node ids the graph walker can ever touch: the declared nodes plus
every edge target. -/
def gUniv (g : Graph) : Finset Nat := Finset.range g.length ∪ adjUnion g

/-- Length of the longest adjacency list (used only to size the fuel of the
model's recursion). -/
def maxAdj (g : Graph) : Nat := g.foldr (fun l m => max l.length m) 0

/-! ## Depth-first post-order walk (GraphWalker::sort_dependencies_recursion)

The Rust recursion keeps a shared `seen: HashSet<usize>` and an output vector
`branch`; visiting an unseen node first marks it seen, then recursively visits
its descendants, then pushes the node.  We model it with an explicit worklist
and a fuel argument that makes the recursion structural; `dfsFuel` below is
always enough fuel, so the model never truncates (see `visitL_spec`). -/

def visitL (g : Graph) : Nat → Finset Nat → List Nat → List Nat → Finset Nat × List Nat
  | 0, seen, branch, _ => (seen, branch)
  | _ + 1, seen, branch, [] => (seen, branch)
  | fuel + 1, seen, branch, i :: rest =>
    if i ∈ seen then visitL g fuel seen branch rest
    else
      let p := visitL g fuel (insert i seen) branch (nbrs g i)
      visitL g fuel p.1 (p.2 ++ [i]) rest

/-- Fuel that is always sufficient for the walk (proved in `visitL_spec`). -/
def dfsFuel (g : Graph) : Nat := (gUniv g).card * (maxAdj g + 1) + 1

/-- The walker's `sort_dependencies_recursion` entry point for one node. -/
def sort_dependencies_recursion (g : Graph) (seen : Finset Nat)
    (branch : List Nat) (i : Nat) : Finset Nat × List Nat :=
  visitL g (dfsFuel g) seen branch [i]

/-- The walker's `get_sorted_dependencies`: run the recursion over all node
ids in ascending order, sharing the `seen` set and the output vector. -/
def get_sorted_dependencies (g : Graph) : List Nat :=
  ((List.range g.length).foldl
    (fun st i => sort_dependencies_recursion g st.1 st.2 i)
    ((∅ : Finset Nat), ([] : List Nat))).2

/-! ## Cycle detection (GraphWalker::get_cycling_dependencies)

One pass over the sorted indexes; a node is tainted when every one of its
descendants is a leaf or already tainted (leaf descendants are also tainted
on the fly).  If all nodes end up tainted the graph is acyclic; otherwise the
untainted nodes are returned. -/

/-- The body of the inner `for descendant in descendants` loop: a descendant
that is a leaf or already tainted is (re)inserted into the tainted set and
counted. -/
def taintCheck (g : Graph) (p : Finset Nat × Nat) (d : Nat) : Finset Nat × Nat :=
  if has_node_descendants g d = false ∨ d ∈ p.1 then (insert d p.1, p.2 + 1) else p

/-- The body of the outer `for node in sorted_indexes` loop: run the inner
loop over the node's descendants and taint the node itself when every
descendant was counted. -/
def taintStep (g : Graph) (tainted : Finset Nat) (node : Nat) : Finset Nat :=
  let ds := nbrs g node
  let p := ds.foldl (taintCheck g) (tainted, 0)
  if p.2 = ds.length then insert node p.1 else p.1

/-- Taint propagation over the whole sorted index list. -/
def taintFold (g : Graph) (sorted : List Nat) : Finset Nat :=
  sorted.foldl (taintStep g) ∅

/-- The walker's `get_cycling_dependencies`: `none` when every node got
tainted, otherwise the set difference `nodes \ tainted` (the Rust code turns
this `HashSet` difference into a vector in hash-iteration order; the set is
what this function returns). -/
def get_cycling_dependencies (g : Graph) (sorted : List Nat) : Option (Finset Nat) :=
  let tainted := taintFold g sorted
  if tainted.card = sorted.length then none
  else some (sorted.toFinset \ tainted)

/-! ## Roster, graph construction and ordered contracts (MainConfig) -/

/-- A contract entry of the roster (`ContractConfig` in project_config.rs). -/
structure ContractConfig where
  path : String
  depends_on : List String
deriving DecidableEq, Inhabited

/-- Index of a name in the roster's key list (the `lookup` table: each
contract gets a stable id in roster iteration order). -/
def idxOf : List String → String → Option Nat
  | [], _ => none
  | x :: xs, d => if x = d then some 0 else (idxOf xs d).map (· + 1)

/-- Resolve all dependency names of contract `c` to node ids; the first name
absent from the roster aborts (the Rust code hits `lookup.get(deps).unwrap()`
on `None` there and panics), carrying the dependent contract and the missing
name that are in scope at the failing call. -/
def depIds (names : List String) (c : String) : List String → Except (String × String) (List Nat)
  | [] => .ok []
  | d :: ds =>
    match idxOf names d with
    | none => .error (c, d)
    | some i => (depIds names c ds).map (i :: ·)

/-- Graph construction loop of `ordered_contracts`: one node per contract in
roster order, plus one edge per resolved dependency. -/
def buildGraphGo (names : List String) : Graph → List (String × ContractConfig) →
    Except (String × String) Graph
  | g, [] => .ok g
  | g, (c, cfg) :: rest =>
    match depIds names c cfg.depends_on with
    | .error e => .error e
    | .ok ids => buildGraphGo names (g ++ [ids]) rest

/-- Build the dependency graph from the roster. -/
def buildGraph (contracts : List (String × ContractConfig)) : Except (String × String) Graph :=
  buildGraphGo (contracts.map Prod.fst) [] contracts

/-- Errors that abort `ordered_contracts` (the Rust code panics on the first
and calls `process::exit` after printing on the second). -/
inductive OCError where
  | unknownDependency (dependent missing : String)
  | cyclicDependency (names : List String)
deriving DecidableEq

/-- Map untainted node ids back to contract names through `reverse_lookup`
(the ids arrive in whatever order the `HashSet` difference yields them). -/
def cycle_report (contracts : List (String × ContractConfig)) (ids : List Nat) : List String :=
  ids.map (fun i => (contracts.map Prod.fst).getD i "")

/-- An iteration order a `HashSet` value may legally produce: some sequence
of the set's elements, each exactly once.  Which one occurs depends on the
hasher's per-process random state. -/
def admissibleIter (s : Finset Nat) (o : List Nat) : Prop :=
  o.Nodup ∧ o.toFinset = s

instance (s : Finset Nat) (o : List Nat) : Decidable (admissibleIter s o) := by
  unfold admissibleIter; infer_instance

/-- `MainConfig::ordered_contracts`: build the graph, sort it, stop on a
cycle (reporting the implicated names in the hash-set iteration order `iter`),
otherwise return the contracts in sorted order. -/
def ordered_contracts (contracts : List (String × ContractConfig))
    (iter : Finset Nat → List Nat) : Except OCError (List (String × ContractConfig)) :=
  match buildGraph contracts with
  | .error (c, d) => .error (.unknownDependency c d)
  | .ok g =>
    let sorted := get_sorted_dependencies g
    match get_cycling_dependencies g sorted with
    | some s => .error (.cyclicDependency (cycle_report contracts (iter s)))
    | none => .ok (sorted.map (fun i => contracts.getD i ("", default)))

/-! ## Deployment pipeline (Command::Deploy, cli.rs)

The deploy loop walks `settings.initial_contracts` in order.  Per contract it
resolves the signer through `deployers_lookup`, derives a keypair from the
signer's mnemonic and derivation path, resolves the sequence number through
the `deployers_nonces` cache (querying the network on first use), builds and
signs a transaction, broadcasts it, and on success records the outcome and
advances the cached nonce by one.  Any failure panics, aborting the run. -/

/-- An account of the roster (`repl::settings::Account`, populated by
`load_session` from the chain config). -/
structure Account where
  name : String
  address : String
  mnemonic : String
  derivation : String
  balance : Nat
deriving DecidableEq

/-- An entry of `settings.initial_contracts` (name is `Option` in the Rust
struct; the deploy loop unwraps it). -/
structure InitialContract where
  name : Option String
  code : String
deriving DecidableEq

/-- Transaction anchor mode (`TransactionAnchorMode`). -/
inductive AnchorMode where
  | onChainOnly
  | offChainOnly
  | any
deriving DecidableEq

/-- Post-condition mode (`TransactionPostConditionMode`). -/
inductive PostConditionMode where
  | allow
  | deny
deriving DecidableEq

/-- Transaction version tag (`TransactionVersion`). -/
inductive TxVersion where
  | mainnet
  | testnet
deriving DecidableEq

/-- Transaction payload; the deploy loop always builds the smart-contract
variant carrying the contract name and its full source text. -/
inductive TxPayload where
  | smartContract (name : String) (code_body : String)
deriving DecidableEq

/-- Single-signature spending condition (`SinglesigSpendingCondition`); the
hash mode and key encoding are fixed constants in the Rust code and carry no
information for the claims, so they are omitted. -/
structure SpendingCondition where
  signer : List Nat
  nonce : Nat
  tx_fee : Nat
  signature : List Nat
deriving DecidableEq

/-- A deployment transaction (`StacksTransaction`). -/
structure StacksTransaction where
  version : TxVersion
  chain_id : Nat
  auth : SpendingCondition
  anchor_mode : AnchorMode
  post_condition_mode : PostConditionMode
  post_conditions : List Unit
  payload : TxPayload
deriving DecidableEq

/-- Modelled from the spec: the cryptographic primitives used by the deploy
loop live in `crate::utils::mnemonic` and the external `tiny_hderive` /
`secp256k1` crates, none of which are under src/.  Per the spec they are pure
functions: a 512-bit seed from mnemonic and passphrase, hierarchical
deterministic key derivation along a path, public-key computation, address
hashing, and signing.  Byte strings are modelled as `List Nat`. -/
structure Crypto where
  bip39Seed : String → String → List Nat
  hdDerive : List Nat → String → List Nat
  pubOf : List Nat → List Nat
  addrOf : List Nat → List Nat
  signTx : List Nat → StacksTransaction → List Nat

/-- Key derivation exactly as the deploy loop performs it: seed the mnemonic
with an empty passphrase (`get_bip39_seed_from_mnemonic(&mnemonic, "")`),
derive the private key along the path, compute the public key from it. -/
def derive (crypto : Crypto) (mnemonic path : String) : List Nat × List Nat :=
  let seed := crypto.bip39Seed mnemonic ""
  let priv := crypto.hdDerive seed path
  (priv, crypto.pubOf priv)

/-- Build and sign one deployment transaction (cli.rs lines 280-335): anchor
mode `Any`, fee `200 + code.len()`, deny-all post-condition policy with an
empty post-condition list, smart-contract payload, then a signature over the
unsigned transaction substituted into the spending condition. -/
def build_transaction (crypto : Crypto) (contractName code : String)
    (pub priv : List Nat) (nonce : Nat) : StacksTransaction :=
  let unsigned : StacksTransaction :=
    { version := TxVersion.testnet
      chain_id := 0x80000000
      auth :=
        { signer := crypto.addrOf pub
          nonce := nonce
          tx_fee := 200 + code.utf8ByteSize
          signature := [] }
      anchor_mode := AnchorMode.any
      post_condition_mode := PostConditionMode.deny
      post_conditions := []
      payload := TxPayload.smartContract contractName code }
  { unsigned with auth := { unsigned.auth with signature := crypto.signTx priv unsigned } }

/-- Association-list model of the `BTreeMap`s of the deploy loop
(`deployers_lookup`, `deployers_nonces`): insert overwrites, lookup finds the
most recent binding.  The loop only reads these maps through `get`, never
iterates them, so shadowing inserts are observably identical to the tree
map. -/
def mapInsert {α : Type} (m : List (String × α)) (k : String) (v : α) : List (String × α) :=
  (k, v) :: m

/-- Lookup in the association-list map. -/
def mapGet {α : Type} (m : List (String × α)) (k : String) : Option α :=
  (m.find? (fun p => p.1 == k)).map Prod.snd

/-- Construction of `deployers_lookup`: every account named "deployer" is
inserted under the wildcard key `"*"` (cli.rs lines 240-245). -/
def deployersLookup (accounts : List Account) : List (String × Account) :=
  accounts.foldl (fun m a => if a.name = "deployer" then mapInsert m "*" a else m) []

/-- Errors that abort the deploy loop; each corresponds to a panic site in
the Rust code. -/
inductive DeployError where
  | missingContractName
  | missingDeployer
  | rejectedTransaction
deriving DecidableEq

/-- Signer resolution (cli.rs lines 264-267): an explicit per-contract entry
of `deployers_lookup` if present, else the wildcard `"*"` entry; unwrapping a
missing wildcard entry panics. -/
def resolveDeployer (lookup : List (String × Account)) (contractName : String) :
    Except DeployError Account :=
  match mapGet lookup contractName with
  | some d => .ok d
  | none =>
    match mapGet lookup "*" with
    | some d => .ok d
    | none => .error .missingDeployer

/-- The last account named "deployer" in the roster (with roster names unique,
the account named "deployer"). -/
def lastDeployer : List Account → Option Account
  | [] => none
  | a :: rest =>
    match lastDeployer rest with
    | some d => some d
    | none => if a.name = "deployer" then some a else none

/-- The network as the deploy loop observes it: the nonce returned by
`GET /v2/accounts/{addr}`, and per broadcast attempt (counted in submission
order) whether `POST /v2/transactions` answers 2xx and with which id. -/
structure Network where
  accountNonce : String → Nat
  broadcastOk : Nat → Bool
  txid : Nat → String

/-- Configuration of one deploy run. -/
structure DeployConfig where
  accounts : List Account
  crypto : Crypto
  net : Network

/-- One recorded per-contract success: the printed
`Deploying {name} (txid: {txid}, nonce: {nonce})` line, together with the
signing account's name and address as bookkeeping. -/
structure DeployResult where
  contract : String
  account : String
  address : String
  txid : String
  nonce : Nat
deriving DecidableEq

/-- State threaded through the deploy loop: the `deployers_nonces` cache plus
ghost logs of the network activity (account-nonce queries as (name, address)
pairs, and every broadcast transaction) and of the recorded successes. -/
structure RunState where
  nonces : List (String × Nat)
  queries : List (String × String)
  submissions : List StacksTransaction
  results : List DeployResult

/-- Initial state of a run: empty cache, nothing queried or submitted. -/
def initState : RunState := ⟨[], [], [], []⟩

/-- One iteration of the deploy loop (cli.rs lines 255-355).  On failure the
state accumulated so far is returned alongside the error: the run halts. -/
def deployStep (cfg : DeployConfig) (st : RunState) (c : InitialContract) :
    Except (RunState × DeployError) RunState :=
  match c.name with
  | none => .error (st, .missingContractName)
  | some contract_name =>
    match resolveDeployer (deployersLookup cfg.accounts) contract_name with
    | .error e => .error (st, e)
    | .ok deployer =>
      let keys := derive cfg.crypto deployer.mnemonic deployer.derivation
      let resolved :=
        match mapGet st.nonces deployer.name with
        | some n => (n, st.nonces, st.queries)
        | none =>
          let n := cfg.net.accountNonce deployer.address
          (n, mapInsert st.nonces deployer.name n,
            st.queries ++ [(deployer.name, deployer.address)])
      let nonce := resolved.1
      let tx := build_transaction cfg.crypto contract_name c.code keys.2 keys.1 nonce
      let k := st.submissions.length
      if cfg.net.broadcastOk k then
        .ok { nonces := mapInsert resolved.2.1 deployer.name (nonce + 1)
              queries := resolved.2.2
              submissions := st.submissions ++ [tx]
              results := st.results ++
                [⟨contract_name, deployer.name, deployer.address, cfg.net.txid k, nonce⟩] }
      else
        .error ({ st with
                    nonces := resolved.2.1
                    queries := resolved.2.2
                    submissions := st.submissions ++ [tx] },
                .rejectedTransaction)

/-- The deploy loop over the ordered contract list: strictly sequential, and
the first failure aborts the whole run with the state reached so far. -/
def deployContracts (cfg : DeployConfig) (st : RunState) :
    List InitialContract → RunState × Option DeployError
  | [] => (st, none)
  | c :: rest =>
    match deployStep cfg st c with
    | .ok st' => deployContracts cfg st' rest
    | .error (st', e) => (st', some e)

/-! ## Basic graph lemmas -/

theorem adjUnion_cons (l : List Nat) (g : Graph) :
    adjUnion (l :: g) = l.toFinset ∪ adjUnion g := rfl

theorem mem_adjUnion {g : Graph} {l : List Nat} {v : Nat} (hl : l ∈ g) (hv : v ∈ l) :
    v ∈ adjUnion g := by
  induction g with
  | nil => cases hl
  | cons x g ih =>
    rw [adjUnion_cons]
    rcases List.mem_cons.1 hl with rfl | hl'
    · exact Finset.mem_union_left _ (List.mem_toFinset.2 hv)
    · exact Finset.mem_union_right _ (ih hl')

theorem nbrs_sublists {g : Graph} {i : Nat} (h : nbrs g i ≠ []) : nbrs g i ∈ g := by
  unfold nbrs at h ⊢
  cases hg : g.get? i with
  | none => rw [hg] at h; simp at h
  | some l => simpa using List.get?_mem hg

theorem nbrs_mem_gUniv {g : Graph} {i v : Nat} (h : v ∈ nbrs g i) : v ∈ gUniv g := by
  have hne : nbrs g i ≠ [] := by intro he; rw [he] at h; cases h
  exact Finset.mem_union_right _ (mem_adjUnion (nbrs_sublists hne) h)

theorem edge_lt {g : Graph} {u v : Nat} (h : edge g u v) : u < g.length := by
  by_contra hge
  have : g.get? u = none := List.get?_eq_none.2 (by omega)
  unfold edge nbrs at h
  rw [this] at h
  cases h

theorem maxAdj_cons (l : List Nat) (g : Graph) :
    maxAdj (l :: g) = max l.length (maxAdj g) := rfl

theorem length_le_maxAdj {g : Graph} {l : List Nat} (hl : l ∈ g) : l.length ≤ maxAdj g := by
  induction g with
  | nil => cases hl
  | cons x g ih =>
    rw [maxAdj_cons]
    rcases List.mem_cons.1 hl with rfl | hl'
    · exact le_max_left _ _
    · exact le_trans (ih hl') (le_max_right _ _)

theorem nbrs_length_le (g : Graph) (i : Nat) : (nbrs g i).length ≤ maxAdj g := by
  by_cases h : nbrs g i = []
  · rw [h]; exact Nat.zero_le _
  · exact length_le_maxAdj (nbrs_sublists h)

theorem adjUnion_spec (g : Graph) : ∀ x ∈ adjUnion g, ∃ l ∈ g, x ∈ l := by
  induction g with
  | nil => intro x hx; cases hx
  | cons l g ih =>
    intro x hx
    rw [adjUnion_cons] at hx
    rcases Finset.mem_union.1 hx with hx | hx
    · exact ⟨l, List.mem_cons_self _ _, List.mem_toFinset.1 hx⟩
    · rcases ih x hx with ⟨l', hl', hx'⟩
      exact ⟨l', List.mem_cons_of_mem _ hl', hx'⟩

theorem gUniv_eq_range {g : Graph} (hwf : WF g) : gUniv g = Finset.range g.length := by
  apply Finset.Subset.antisymm
  · intro x hx
    rcases Finset.mem_union.1 hx with hx | hx
    · exact hx
    · rw [Finset.mem_range]
      rcases adjUnion_spec g x hx with ⟨l, hl, hx'⟩
      exact hwf l hl x hx'
  · exact Finset.subset_union_left

theorem reach_leaf {g : Graph} {a b : Nat} (h : nbrs g a = []) (hr : Reach g a b) :
    b = a := by
  rcases hr.cases_head with heq | ⟨c, hc, _⟩
  · exact heq.symm
  · unfold edge at hc; rw [h] at hc; cases hc

theorem reachesCycle_of_edge {g : Graph} {u v : Nat} (he : edge g u v)
    (h : reachesCycle g v) : reachesCycle g u := by
  rcases h with ⟨a, b, hva, hab, hba⟩
  exact ⟨a, b, Relation.ReflTransGen.head he hva, hab, hba⟩

theorem reachesCycle_of_loop {g : Graph} {u v : Nat} (he : edge g u v)
    (hr : Reach g v u) : reachesCycle g u :=
  ⟨u, v, Relation.ReflTransGen.refl, he, hr⟩

theorem safe_of_nbrs_safe {g : Graph} {u : Nat}
    (h : ∀ v ∈ nbrs g u, ¬ reachesCycle g v) : ¬ reachesCycle g u := by
  rintro ⟨v, w, huv, hvw, hwv⟩
  rcases huv.cases_head with heq | ⟨c, hc, hcv⟩
  · exact h w (heq ▸ hvw) ⟨v, w, hwv, hvw, hwv⟩
  · exact h c hc ⟨v, w, hcv, hvw, hwv⟩

theorem hnd_false_iff (g : Graph) (d : Nat) :
    has_node_descendants g d = false ↔ nbrs g d = [] := by
  unfold has_node_descendants
  simp [List.length_eq_zero]

theorem acyclic_iff_all_safe (g : Graph) :
    Acyclic g ↔ ∀ u, ¬ reachesCycle g u := by
  constructor
  · rintro hacy u ⟨v, w, _, hvw, hwv⟩
    exact hacy v w hvw hwv
  · intro hsafe u v he hr
    exact hsafe u (reachesCycle_of_loop he hr)

/-! ## The post-order closure invariant

`ClosedE g l` says: every dependency of every element of `l` either occurs
strictly earlier in `l` or reaches back to its dependent.  The DFS output
satisfies it for every graph; acyclicity then removes the second disjunct. -/

def ClosedE (g : Graph) (l : List Nat) : Prop :=
  ∀ (k : Nat) (hk : k < l.length), ∀ v ∈ nbrs g (l.get ⟨k, hk⟩),
    v ∈ l.take k ∨ Reach g v (l.get ⟨k, hk⟩)

theorem closedE_nil (g : Graph) : ClosedE g [] := by
  intro k hk
  simp at hk

theorem closedE_append {g : Graph} {l : List Nat} {i : Nat}
    (h : ClosedE g l) (h2 : ∀ v ∈ nbrs g i, v ∈ l ∨ Reach g v i) :
    ClosedE g (l ++ [i]) := by
  intro k hk v hv
  by_cases hkl : k < l.length
  · have hget : (l ++ [i]).get ⟨k, hk⟩ = l.get ⟨k, hkl⟩ := by
      simp only [List.get_eq_getElem]
      exact List.getElem_append_left hkl
    rw [hget] at hv ⊢
    have htake : (l ++ [i]).take k = l.take k :=
      List.take_append_of_le_length (Nat.le_of_lt hkl)
    rw [htake]
    exact h k hkl v hv
  · have hkeq : k = l.length := by
      have hlen := hk
      simp only [List.length_append, List.length_singleton] at hlen
      omega
    subst hkeq
    have hget : (l ++ [i]).get ⟨l.length, hk⟩ = i := by
      simp only [List.get_eq_getElem]
      exact List.getElem_concat_length l i l.length rfl hk
    rw [hget] at hv ⊢
    have htake : (l ++ [i]).take l.length = l := List.take_left l [i]
    rw [htake]
    exact h2 v hv

theorem mem_take_get {l : List Nat} {k : Nat} {v : Nat} (h : v ∈ l.take k) :
    ∃ (j : Nat) (hj : j < l.length), j < k ∧ l.get ⟨j, hj⟩ = v := by
  rcases List.mem_iff_get.1 h with ⟨⟨j, hjlen⟩, hget⟩
  have hjl : j < l.length := by
    have := hjlen
    simp at this
    omega
  have hjk : j < k := by
    have := hjlen
    simp at this
    omega
  refine ⟨j, hjl, hjk, ?_⟩
  rw [← hget]
  simp only [List.get_eq_getElem]
  exact (List.getElem_take l).symm

/-! ## The DFS master lemma

`visitL_spec` characterises one worklist run of the walker: the output
extends the branch by freshly seen nodes, the seen set is exactly the old
seen set plus the pushed nodes (so the "grey" nodes — seen but not pushed —
are unchanged), the output stays closed, and every worklist node ends up
seen.  The grey precondition says every grey node reaches every worklist
node; it is what makes the closure invariant go through. -/

structure VisitIn (g : Graph) (seen : Finset Nat) (branch L : List Nat) : Prop where
  univ : ∀ x ∈ L, x ∈ gUniv g
  sub : branch.toFinset ⊆ seen
  nd : branch.Nodup
  closed : ClosedE g branch
  grey : ∀ w ∈ seen, w ∉ branch → ∀ x ∈ L, Reach g w x

structure VisitOut (g : Graph) (seen : Finset Nat) (branch L : List Nat)
    (out : Finset Nat × List Nat) : Prop where
  grow : ∃ δ, out.2 = branch ++ δ
  seenEq : out.1 = seen ∪ out.2.toFinset
  nd : out.2.Nodup
  fresh : ∀ x ∈ out.2, x ∈ branch ∨ x ∉ seen
  closed : ClosedE g out.2
  greyEq : out.1 \ out.2.toFinset = seen \ branch.toFinset
  visited : ∀ x ∈ L, x ∈ out.1
  bound : out.1 ⊆ seen ∪ gUniv g

theorem fuel_arith0 {A r f : Nat} (h : A + (r + 1) ≤ f + 1) : A + r ≤ f := by omega

theorem fuel_arith1 {A B C lenN restN fuel : Nat} (hmul : A + C ≤ B)
    (hlen : lenN + 1 ≤ C) (hf : B + (restN + 1) ≤ fuel + 1) : A + lenN ≤ fuel := by omega

theorem fuel_arith2 {A A2 B C restN fuel : Nat} (hmul : A + C ≤ B) (hC : 1 ≤ C)
    (hA2 : A2 ≤ A) (hf : B + (restN + 1) ≤ fuel + 1) : A2 + restN ≤ fuel := by omega

theorem visitOut_refl {g : Graph} {seen : Finset Nat} {branch : List Nat}
    (hin : VisitIn g seen branch []) : VisitOut g seen branch [] (seen, branch) := by
  refine ⟨⟨[], by simp⟩, ?_, hin.nd, fun x hx => Or.inl hx, hin.closed, rfl,
    fun x hx => absurd hx (List.not_mem_nil x), Finset.subset_union_left⟩
  exact (Finset.union_eq_left.2 hin.sub).symm

theorem visitL_spec (g : Graph) :
    ∀ (fuel : Nat) (L : List Nat) (seen : Finset Nat) (branch : List Nat),
    (gUniv g \ seen).card * (maxAdj g + 1) + L.length ≤ fuel →
    VisitIn g seen branch L →
    VisitOut g seen branch L (visitL g fuel seen branch L) := by
  intro fuel
  induction fuel with
  | zero =>
    intro L seen branch hfuel hin
    have hL : L = [] := by
      cases L with
      | nil => rfl
      | cons a L' =>
        exfalso
        simp only [List.length_cons] at hfuel
        exact Nat.not_succ_le_zero _ (le_trans (Nat.le_add_left _ _) hfuel)
    subst hL
    exact visitOut_refl hin
  | succ fuel ih =>
    intro L seen branch hfuel hin
    cases L with
    | nil => exact visitOut_refl hin
    | cons i rest =>
      simp only [List.length_cons] at hfuel
      by_cases hi : i ∈ seen
      · have hstep : visitL g (fuel + 1) seen branch (i :: rest) =
            visitL g fuel seen branch rest := by
          simp only [visitL, if_pos hi]
        rw [hstep]
        have hin' : VisitIn g seen branch rest :=
          ⟨fun x hx => hin.univ x (List.mem_cons_of_mem _ hx), hin.sub, hin.nd, hin.closed,
            fun w hw hwb x hx => hin.grey w hw hwb x (List.mem_cons_of_mem _ hx)⟩
        have hout := ih rest seen branch (fuel_arith0 hfuel) hin'
        refine ⟨hout.grow, hout.seenEq, hout.nd, hout.fresh, hout.closed, hout.greyEq,
          ?_, hout.bound⟩
        intro x hx
        rcases List.mem_cons.1 hx with rfl | hx'
        · rw [hout.seenEq]; exact Finset.mem_union_left _ hi
        · exact hout.visited x hx'
      · have hstep : visitL g (fuel + 1) seen branch (i :: rest) =
            visitL g fuel (visitL g fuel (insert i seen) branch (nbrs g i)).1
              ((visitL g fuel (insert i seen) branch (nbrs g i)).2 ++ [i]) rest := by
          simp only [visitL, if_neg hi]
        rw [hstep]
        set p := visitL g fuel (insert i seen) branch (nbrs g i) with hpdef
        have hiU : i ∈ gUniv g := hin.univ i (List.mem_cons_self i rest)
        have hiUS : i ∈ gUniv g \ seen := Finset.mem_sdiff.2 ⟨hiU, hi⟩
        have hcard : (gUniv g \ insert i seen).card + 1 ≤ (gUniv g \ seen).card := by
          have hsub : gUniv g \ insert i seen ⊆ gUniv g \ seen :=
            Finset.sdiff_subset_sdiff (Finset.Subset.refl _) (Finset.subset_insert i seen)
          have hss : gUniv g \ insert i seen ⊂ gUniv g \ seen :=
            (Finset.ssubset_iff_of_subset hsub).2 ⟨i, hiUS, by simp⟩
          exact Finset.card_lt_card hss
        have hmul : (gUniv g \ insert i seen).card * (maxAdj g + 1) + (maxAdj g + 1) ≤
            (gUniv g \ seen).card * (maxAdj g + 1) := by
          have := Nat.mul_le_mul_right (maxAdj g + 1) hcard
          rwa [Nat.succ_mul] at this
        have hlen : (nbrs g i).length + 1 ≤ maxAdj g + 1 := by
          have := nbrs_length_le g i; omega
        have hfuel1 := fuel_arith1 hmul hlen hfuel
        have hin1 : VisitIn g (insert i seen) branch (nbrs g i) := by
          refine ⟨fun x hx => nbrs_mem_gUniv hx, hin.sub.trans (Finset.subset_insert i seen),
            hin.nd, hin.closed, ?_⟩
          intro w hw hwb x hx
          rcases Finset.mem_insert.1 hw with rfl | hw'
          · exact Relation.ReflTransGen.single (show edge g w x from hx)
          · exact Relation.ReflTransGen.tail
              (hin.grey w hw' hwb i (List.mem_cons_self i rest)) (show edge g i x from hx)
        have hp_out := ih (nbrs g i) (insert i seen) branch hfuel1 hin1
        have hpsub : insert i seen ⊆ p.1 := by
          rw [hp_out.seenEq]; exact Finset.subset_union_left
        have hA2 : (gUniv g \ p.1).card ≤ (gUniv g \ insert i seen).card :=
          Finset.card_le_card (Finset.sdiff_subset_sdiff (Finset.Subset.refl _) hpsub)
        have hfuel2 := fuel_arith2 hmul (by omega)
          (Nat.mul_le_mul_right (maxAdj g + 1) hA2) hfuel
        obtain ⟨δ1, hδ1⟩ := hp_out.grow
        have hiNotp2 : i ∉ p.2 := by
          intro hip
          rcases hp_out.fresh i hip with hib | his
          · exact hi (hin.sub (List.mem_toFinset.2 hib))
          · exact his (Finset.mem_insert_self i seen)
        have hnd2 : (p.2 ++ [i]).Nodup := by
          refine List.Nodup.append hp_out.nd (List.nodup_singleton i) ?_
          intro x hx hx1
          rw [List.mem_singleton] at hx1
          subst hx1
          exact hiNotp2 hx
        have hsub2 : (p.2 ++ [i]).toFinset ⊆ p.1 := by
          intro x hx
          rw [List.mem_toFinset, List.mem_append] at hx
          rcases hx with hx | hx
          · rw [hp_out.seenEq]; exact Finset.mem_union_right _ (List.mem_toFinset.2 hx)
          · rw [List.mem_singleton] at hx
            subst hx
            exact hpsub (Finset.mem_insert_self x seen)
        have hclosed2 : ClosedE g (p.2 ++ [i]) := by
          refine closedE_append hp_out.closed ?_
          intro v hv
          have hvp1 : v ∈ p.1 := hp_out.visited v hv
          rw [hp_out.seenEq] at hvp1
          rcases Finset.mem_union.1 hvp1 with hv1 | hv2
          · rcases Finset.mem_insert.1 hv1 with rfl | hvs
            · exact Or.inr Relation.ReflTransGen.refl
            · by_cases hvb : v ∈ branch
              · left; rw [hδ1]; exact List.mem_append_left _ hvb
              · exact Or.inr (hin.grey v hvs hvb i (List.mem_cons_self i rest))
          · left; exact List.mem_toFinset.1 hv2
        have hgrey2 : p.1 \ (p.2 ++ [i]).toFinset = seen \ branch.toFinset := by
          ext x
          have h6x := Finset.ext_iff.1 hp_out.greyEq x
          simp only [Finset.mem_sdiff, List.mem_toFinset, Finset.mem_insert] at h6x
          simp only [Finset.mem_sdiff, List.mem_toFinset, List.mem_append,
            List.mem_singleton]
          constructor
          · rintro ⟨hxp, hnx⟩
            push_neg at hnx
            obtain ⟨hx2, hxi⟩ := hnx
            rcases h6x.1 ⟨hxp, hx2⟩ with ⟨hxor, hxb⟩
            rcases hxor with rfl | hxs
            · exact absurd rfl hxi
            · exact ⟨hxs, hxb⟩
          · rintro ⟨hxs, hxb⟩
            have hxi : x ≠ i := by rintro rfl; exact hi hxs
            have hx := h6x.2 ⟨Or.inr hxs, hxb⟩
            refine ⟨hx.1, ?_⟩
            push_neg
            exact ⟨hx.2, hxi⟩
        have hin2 : VisitIn g p.1 (p.2 ++ [i]) rest := by
          refine ⟨fun x hx => hin.univ x (List.mem_cons_of_mem _ hx), hsub2, hnd2, hclosed2, ?_⟩
          intro w hw hwb x hx
          have hwgrey : w ∈ p.1 \ (p.2 ++ [i]).toFinset :=
            Finset.mem_sdiff.2 ⟨hw, fun hmem => hwb (List.mem_toFinset.1 hmem)⟩
          rw [hgrey2] at hwgrey
          rcases Finset.mem_sdiff.1 hwgrey with ⟨hws, hwb'⟩
          exact hin.grey w hws (fun hb => hwb' (List.mem_toFinset.2 hb)) x
            (List.mem_cons_of_mem _ hx)
        have hq_out := ih rest p.1 (p.2 ++ [i]) hfuel2 hin2
        set q := visitL g fuel p.1 (p.2 ++ [i]) rest with hqdef
        obtain ⟨δ2, hδ2⟩ := hq_out.grow
        have hiq : i ∈ q.2.toFinset := by
          rw [List.mem_toFinset, hδ2]
          exact List.mem_append_left _ (List.mem_append_right _ (List.mem_singleton_self i))
        have hpq : p.2.toFinset ⊆ q.2.toFinset := by
          intro x hx
          rw [List.mem_toFinset] at hx ⊢
          rw [hδ2]
          exact List.mem_append_left _ (List.mem_append_left _ hx)
        refine ⟨⟨δ1 ++ [i] ++ δ2, by rw [hδ2, hδ1]; simp [List.append_assoc]⟩,
          ?_, hq_out.nd, ?_, hq_out.closed, ?_, ?_, ?_⟩
        · apply Finset.Subset.antisymm
          · intro x hx
            rw [hq_out.seenEq] at hx
            rcases Finset.mem_union.1 hx with hx1 | hx2
            · rw [hp_out.seenEq] at hx1
              rcases Finset.mem_union.1 hx1 with hx3 | hx4
              · rcases Finset.mem_insert.1 hx3 with rfl | hx5
                · exact Finset.mem_union_right _ hiq
                · exact Finset.mem_union_left _ hx5
              · exact Finset.mem_union_right _ (hpq hx4)
            · exact Finset.mem_union_right _ hx2
          · intro x hx
            rw [hq_out.seenEq]
            rcases Finset.mem_union.1 hx with hx1 | hx2
            · exact Finset.mem_union_left _ (hpsub (Finset.mem_insert_of_mem hx1))
            · exact Finset.mem_union_right _ hx2
        · intro x hx
          rcases hq_out.fresh x hx with hx1 | hx2
          · rcases List.mem_append.1 hx1 with hx1 | hx1
            · rcases hp_out.fresh x hx1 with hb | hs
              · exact Or.inl hb
              · exact Or.inr (fun hxs => hs (Finset.mem_insert_of_mem hxs))
            · rw [List.mem_singleton] at hx1
              subst hx1
              exact Or.inr hi
          · exact Or.inr (fun hxs => hx2 (hpsub (Finset.mem_insert_of_mem hxs)))
        · rw [hq_out.greyEq]; exact hgrey2
        · intro x hx
          rcases List.mem_cons.1 hx with rfl | hx'
          · have hxp : x ∈ p.1 := hpsub (Finset.mem_insert_self x seen)
            rw [hq_out.seenEq]
            exact Finset.mem_union_left _ hxp
          · exact hq_out.visited x hx'
        · intro x hx
          have hx1 := hq_out.bound hx
          rcases Finset.mem_union.1 hx1 with hx2 | hx3
          · have hx4 := hp_out.bound hx2
            rcases Finset.mem_union.1 hx4 with hx5 | hx6
            · rcases Finset.mem_insert.1 hx5 with rfl | hx7
              · exact Finset.mem_union_right _ hiU
              · exact Finset.mem_union_left _ hx7
            · exact Finset.mem_union_right _ hx6
          · exact Finset.mem_union_right _ hx3

/-! ## Top-level properties of the sorted order -/

structure SortInv (g : Graph) (st : Finset Nat × List Nat) : Prop where
  seenEq : st.1 = st.2.toFinset
  nd : st.2.Nodup
  closed : ClosedE g st.2
  bound : st.1 ⊆ gUniv g

theorem sort_step_spec (g : Graph) {st : Finset Nat × List Nat} (hinv : SortInv g st)
    {i : Nat} (hiU : i ∈ gUniv g) :
    SortInv g (sort_dependencies_recursion g st.1 st.2 i) ∧
    st.1 ⊆ (sort_dependencies_recursion g st.1 st.2 i).1 ∧
    i ∈ (sort_dependencies_recursion g st.1 st.2 i).1 := by
  unfold sort_dependencies_recursion
  have hfuel : (gUniv g \ st.1).card * (maxAdj g + 1) + [i].length ≤ dfsFuel g := by
    have hle : (gUniv g \ st.1).card ≤ (gUniv g).card :=
      Finset.card_le_card (Finset.sdiff_subset)
    have := Nat.mul_le_mul_right (maxAdj g + 1) hle
    simp only [List.length_singleton]
    unfold dfsFuel
    omega
  have hin : VisitIn g st.1 st.2 [i] := by
    refine ⟨?_, le_of_eq hinv.seenEq.symm, hinv.nd, hinv.closed, ?_⟩
    · intro x hx
      rw [List.mem_singleton] at hx
      subst hx
      exact hiU
    · intro w hw hwb x _
      exact absurd (hinv.seenEq ▸ hw) (fun hmem => hwb (List.mem_toFinset.1 hmem))
  have hout := visitL_spec g (dfsFuel g) [i] st.1 st.2 hfuel hin
  obtain ⟨δ, hδ⟩ := hout.grow
  have hsub : st.2.toFinset ⊆ (sort_dependencies_recursion g st.1 st.2 i).2.toFinset := by
    unfold sort_dependencies_recursion
    intro x hx
    rw [List.mem_toFinset] at hx ⊢
    rw [hδ]
    exact List.mem_append_left _ hx
  have hseen : (sort_dependencies_recursion g st.1 st.2 i).1 =
      (sort_dependencies_recursion g st.1 st.2 i).2.toFinset := by
    unfold sort_dependencies_recursion
    unfold sort_dependencies_recursion at hsub
    rw [hout.seenEq]
    exact Finset.union_eq_right.2 (le_trans (le_of_eq hinv.seenEq) hsub)
  refine ⟨⟨hseen, hout.nd, hout.closed, ?_⟩, ?_, hout.visited i (List.mem_singleton_self i)⟩
  · intro x hx
    have := hout.bound hx
    rcases Finset.mem_union.1 this with hx1 | hx2
    · exact hinv.bound hx1
    · exact hx2
  · intro x hx
    rw [hout.seenEq]
    exact Finset.mem_union_left _ hx

theorem sorted_foldl_spec (g : Graph) :
    ∀ (L : List Nat), (∀ x ∈ L, x ∈ gUniv g) → ∀ st, SortInv g st →
    SortInv g (L.foldl (fun st i => sort_dependencies_recursion g st.1 st.2 i) st) ∧
    (∀ x ∈ st.1, x ∈ (L.foldl (fun st i => sort_dependencies_recursion g st.1 st.2 i) st).1) ∧
    (∀ x ∈ L, x ∈ (L.foldl (fun st i => sort_dependencies_recursion g st.1 st.2 i) st).1) := by
  intro L
  induction L with
  | nil =>
    intro _ st hinv
    exact ⟨hinv, fun x hx => hx, fun x hx => absurd hx (List.not_mem_nil x)⟩
  | cons i L ih =>
    intro hLU st hinv
    have hiU : i ∈ gUniv g := hLU i (List.mem_cons_self i L)
    obtain ⟨hinv', hmono, hvis⟩ := sort_step_spec g hinv hiU
    obtain ⟨hinv'', hmono', hvis'⟩ :=
      ih (fun x hx => hLU x (List.mem_cons_of_mem _ hx)) _ hinv'
    refine ⟨hinv'', ?_, ?_⟩
    · intro x hx
      exact hmono' x (hmono hx)
    · intro x hx
      rcases List.mem_cons.1 hx with rfl | hx'
      · exact hmono' x hvis
      · exact hvis' x hx'

theorem get_sorted_dependencies_spec (g : Graph) :
    (get_sorted_dependencies g).Nodup ∧ ClosedE g (get_sorted_dependencies g) ∧
    (get_sorted_dependencies g).toFinset ⊆ gUniv g ∧
    (∀ x, x < g.length → x ∈ get_sorted_dependencies g) := by
  have h0 : SortInv g ((∅ : Finset Nat), ([] : List Nat)) :=
    ⟨by simp, List.nodup_nil, closedE_nil g, by simp⟩
  have hLU : ∀ x ∈ List.range g.length, x ∈ gUniv g := by
    intro x hx
    exact Finset.mem_union_left _ (Finset.mem_range.2 (List.mem_range.1 hx))
  obtain ⟨hinv, _, hvis⟩ := sorted_foldl_spec g (List.range g.length) hLU _ h0
  have hl : get_sorted_dependencies g =
      ((List.range g.length).foldl
        (fun st i => sort_dependencies_recursion g st.1 st.2 i)
        ((∅ : Finset Nat), ([] : List Nat))).2 := rfl
  refine ⟨?_, ?_, ?_, ?_⟩
  · rw [hl]; exact hinv.nd
  · rw [hl]; exact hinv.closed
  · rw [hl]
    intro x hx
    exact hinv.bound (hinv.seenEq ▸ hx)
  · intro x hx
    have := hvis x (List.mem_range.2 hx)
    rw [hinv.seenEq] at this
    rw [hl]
    exact List.mem_toFinset.1 this

theorem sorted_toFinset_eq {g : Graph} (hwf : WF g) :
    (get_sorted_dependencies g).toFinset = Finset.range g.length := by
  obtain ⟨_, _, hbound, hvis⟩ := get_sorted_dependencies_spec g
  apply Finset.Subset.antisymm
  · rw [← gUniv_eq_range hwf]
    exact hbound
  · intro x hx
    exact List.mem_toFinset.2 (hvis x (Finset.mem_range.1 hx))

/-- Claim C10: for every well-formed graph, cyclic or not, the sequence
returned by `get_sorted_dependencies` contains each node id exactly once — it
is a permutation of all node ids. -/
theorem sortedOrder_is_permutation (g : Graph) (hwf : WF g) :
    (get_sorted_dependencies g).Perm (List.range g.length) := by
  obtain ⟨hnd, _, _, _⟩ := get_sorted_dependencies_spec g
  refine List.perm_of_nodup_nodup_toFinset_eq hnd (List.nodup_range _) ?_
  rw [sorted_toFinset_eq hwf]
  ext x
  simp [List.mem_range, Finset.mem_range]

/-- Witness for C10 at the cyclic two-node roster. -/
theorem sortedOrder_is_permutation_witness :
    WF [[1], [0]] ∧ (get_sorted_dependencies [[1], [0]]).Perm (List.range 2) :=
  ⟨by decide, sortedOrder_is_permutation [[1], [0]] (by decide)⟩

/-- Claim C1: for every well-formed acyclic graph, the deployment order
places every artifact after all artifacts it depends on: for every edge
`u depends-on v`, `v` appears strictly before `u` in the returned
sequence. -/
theorem sortedOrder_respects_dependencies (g : Graph) (hwf : WF g) (hacy : Acyclic g)
    (u v : Nat) (he : edge g u v) :
    ∀ (k : Nat) (hk : k < (get_sorted_dependencies g).length),
      (get_sorted_dependencies g).get ⟨k, hk⟩ = u →
      ∃ (j : Nat) (hj : j < (get_sorted_dependencies g).length), j < k ∧
        (get_sorted_dependencies g).get ⟨j, hj⟩ = v := by
  intro k hk hku
  obtain ⟨_, hclosed, _, _⟩ := get_sorted_dependencies_spec g
  have hv := hclosed k hk v (by rw [hku]; exact he)
  rcases hv with hv | hv
  · exact mem_take_get hv
  · rw [hku] at hv
    exact absurd hv (hacy u v he)

/-! ## Correctness of the taint-propagation cycle check -/

theorem reachesCycle_lt {g : Graph} {u : Nat} (h : reachesCycle g u) : u < g.length := by
  rcases h with ⟨v, w, huv, hvw, _⟩
  rcases huv.cases_head with heq | ⟨c, hc, _⟩
  · exact edge_lt (heq ▸ hvw)
  · exact edge_lt hc

theorem taintCheck_fold_mono (g : Graph) (ds : List Nat) :
    ∀ t c, t ⊆ (ds.foldl (taintCheck g) (t, c)).1 := by
  induction ds with
  | nil => intro t c; exact Finset.Subset.refl t
  | cons d ds ih =>
    intro t c
    simp only [List.foldl_cons]
    unfold taintCheck
    split_ifs with hcond
    · exact (Finset.subset_insert d t).trans (ih _ _)
    · exact ih t c

theorem taintCheck_fold_bound (g : Graph) (ds : List Nat) :
    ∀ t c, (ds.foldl (taintCheck g) (t, c)).1 ⊆ t ∪ ds.toFinset := by
  induction ds with
  | nil => intro t c; exact Finset.subset_union_left
  | cons d ds ih =>
    intro t c
    simp only [List.foldl_cons]
    unfold taintCheck
    split_ifs with hcond
    · refine (ih _ _).trans ?_
      intro x hx
      rcases Finset.mem_union.1 hx with hx | hx
      · rcases Finset.mem_insert.1 hx with rfl | hx'
        · exact Finset.mem_union_right _ (by simp)
        · exact Finset.mem_union_left _ hx'
      · exact Finset.mem_union_right _ (by simp [List.mem_toFinset.1 hx])
    · refine (ih _ _).trans ?_
      intro x hx
      rcases Finset.mem_union.1 hx with hx | hx
      · exact Finset.mem_union_left _ hx
      · exact Finset.mem_union_right _ (by simp [List.mem_toFinset.1 hx])

theorem taintCheck_fold_safe (g : Graph) (ds : List Nat) :
    ∀ t c, (∀ x ∈ t, ¬ reachesCycle g x) →
    ∀ x ∈ (ds.foldl (taintCheck g) (t, c)).1, ¬ reachesCycle g x := by
  induction ds with
  | nil => intro t c ht; exact ht
  | cons d ds ih =>
    intro t c ht
    simp only [List.foldl_cons]
    unfold taintCheck
    split_ifs with hcond
    · refine ih _ _ ?_
      intro x hx
      rcases Finset.mem_insert.1 hx with rfl | hx'
      · rcases hcond with hleaf | hmem
        · exact safe_of_nbrs_safe (by rw [(hnd_false_iff g x).1 hleaf]; intro v hv; cases hv)
        · exact ht x hmem
      · exact ht x hx'
    · exact ih t c ht

theorem taintCheck_fold_count_le (g : Graph) (ds : List Nat) :
    ∀ t c, (ds.foldl (taintCheck g) (t, c)).2 ≤ c + ds.length := by
  induction ds with
  | nil => intro t c; simp
  | cons d ds ih =>
    intro t c
    simp only [List.foldl_cons, List.length_cons]
    by_cases hcond : has_node_descendants g d = false ∨ d ∈ (t, c).1
    · rw [show taintCheck g (t, c) d = (insert d t, c + 1) from by
        unfold taintCheck; rw [if_pos hcond]]
      have := ih (insert d t) (c + 1); omega
    · rw [show taintCheck g (t, c) d = (t, c) from by
        unfold taintCheck; rw [if_neg hcond]]
      have := ih t c; omega

theorem taintCheck_fold_full (g : Graph) (ds : List Nat) :
    ∀ t c, (ds.foldl (taintCheck g) (t, c)).2 = c + ds.length →
    ∀ d ∈ ds, d ∈ (ds.foldl (taintCheck g) (t, c)).1 := by
  induction ds with
  | nil => intro t c _ d hd; cases hd
  | cons d0 ds ih =>
    intro t c hcount d hd
    simp only [List.foldl_cons, List.length_cons] at hcount ⊢
    by_cases hcond : has_node_descendants g d0 = false ∨ d0 ∈ (t, c).1
    · rw [show taintCheck g (t, c) d0 = (insert d0 t, c + 1) from by
        unfold taintCheck; rw [if_pos hcond]] at hcount ⊢
      rcases List.mem_cons.1 hd with rfl | hd'
      · exact taintCheck_fold_mono g ds _ _ (Finset.mem_insert_self d t)
      · exact ih _ _ (by omega) d hd'
    · rw [show taintCheck g (t, c) d0 = (t, c) from by
        unfold taintCheck; rw [if_neg hcond]] at hcount ⊢
      have := taintCheck_fold_count_le g ds t c
      omega

theorem taintCheck_fold_complete (g : Graph) (ds : List Nat) :
    ∀ t c, (∀ d ∈ ds, has_node_descendants g d = false ∨ d ∈ t) →
    (ds.foldl (taintCheck g) (t, c)).2 = c + ds.length := by
  induction ds with
  | nil => intro t c _; simp
  | cons d0 ds ih =>
    intro t c hall
    simp only [List.foldl_cons, List.length_cons]
    have hcond : has_node_descendants g d0 = false ∨ d0 ∈ (t, c).1 :=
      hall d0 (List.mem_cons_self _ _)
    rw [show taintCheck g (t, c) d0 = (insert d0 t, c + 1) from by
      unfold taintCheck; rw [if_pos hcond]]
    have := ih (insert d0 t) (c + 1) (by
      intro d hd
      rcases hall d (List.mem_cons_of_mem _ hd) with h | h
      · exact Or.inl h
      · exact Or.inr (Finset.mem_insert_of_mem h))
    omega

theorem taintStep_mono (g : Graph) (t : Finset Nat) (node : Nat) :
    t ⊆ taintStep g t node := by
  simp only [taintStep]
  split_ifs with hc
  · exact (taintCheck_fold_mono g _ t 0).trans (Finset.subset_insert _ _)
  · exact taintCheck_fold_mono g _ t 0

theorem taintStep_bound (g : Graph) (t : Finset Nat) (node : Nat) :
    taintStep g t node ⊆ (t ∪ (nbrs g node).toFinset) ∪ {node} := by
  simp only [taintStep]
  split_ifs with hc
  · intro x hx
    rcases Finset.mem_insert.1 hx with rfl | hx'
    · exact Finset.mem_union_right _ (Finset.mem_singleton_self x)
    · exact Finset.mem_union_left _ (taintCheck_fold_bound g _ t 0 hx')
  · intro x hx
    exact Finset.mem_union_left _ (taintCheck_fold_bound g _ t 0 hx)

theorem taintStep_safe (g : Graph) (t : Finset Nat) (node : Nat)
    (ht : ∀ x ∈ t, ¬ reachesCycle g x) :
    ∀ x ∈ taintStep g t node, ¬ reachesCycle g x := by
  simp only [taintStep]
  intro x hx
  have hsafe := taintCheck_fold_safe g (nbrs g node) t 0 ht
  split_ifs at hx with hc
  · rcases Finset.mem_insert.1 hx with rfl | hx'
    · refine safe_of_nbrs_safe ?_
      intro v hv
      exact hsafe v (taintCheck_fold_full g (nbrs g x) t 0 (by simpa using hc) v hv)
    · exact hsafe x hx'
  · exact hsafe x hx

theorem taintStep_complete (g : Graph) (t : Finset Nat) (node : Nat)
    (h : ∀ d ∈ nbrs g node, d ∈ t) : node ∈ taintStep g t node := by
  simp only [taintStep]
  have := taintCheck_fold_complete g (nbrs g node) t 0 (fun d hd => Or.inr (h d hd))
  rw [if_pos (by simpa using this)]
  exact Finset.mem_insert_self _ _

theorem foldl_taintStep_safe (g : Graph) :
    ∀ (l : List Nat) (t : Finset Nat), (∀ x ∈ t, ¬ reachesCycle g x) →
    ∀ x ∈ l.foldl (taintStep g) t, ¬ reachesCycle g x := by
  intro l
  induction l with
  | nil => intro t ht; exact ht
  | cons a l ih =>
    intro t ht
    simp only [List.foldl_cons]
    exact ih _ (taintStep_safe g t a ht)

theorem foldl_taintStep_mono (g : Graph) :
    ∀ (l : List Nat) (t : Finset Nat), t ⊆ l.foldl (taintStep g) t := by
  intro l
  induction l with
  | nil => intro t; exact Finset.Subset.refl t
  | cons a l ih =>
    intro t
    simp only [List.foldl_cons]
    exact (taintStep_mono g t a).trans (ih _)

theorem foldl_taintStep_bound (g : Graph) :
    ∀ (l : List Nat) (t : Finset Nat),
    l.foldl (taintStep g) t ⊆ (t ∪ l.toFinset) ∪ adjUnion g := by
  intro l
  induction l with
  | nil => intro t; intro x hx; exact Finset.mem_union_left _ (Finset.mem_union_left _ hx)
  | cons a l ih =>
    intro t
    simp only [List.foldl_cons]
    refine (ih _).trans ?_
    intro x hx
    rcases Finset.mem_union.1 hx with hx | hx
    · rcases Finset.mem_union.1 hx with hx | hx
      · rcases Finset.mem_union.1 (taintStep_bound g t a hx) with hx' | hx'
        · rcases Finset.mem_union.1 hx' with hx'' | hx''
          · exact Finset.mem_union_left _ (Finset.mem_union_left _ hx'')
          · exact Finset.mem_union_right _
              (mem_adjUnion (nbrs_sublists (by
                intro he; rw [he] at hx''; simp at hx'')) (List.mem_toFinset.1 hx''))
        · rcases Finset.mem_singleton.1 hx' with rfl
          exact Finset.mem_union_left _ (Finset.mem_union_right _ (by simp))
      · exact Finset.mem_union_left _ (Finset.mem_union_right _ (by
          rw [List.mem_toFinset] at hx ⊢; exact List.mem_cons_of_mem _ hx))
    · exact Finset.mem_union_right _ hx

theorem taint_covers (g : Graph) (l : List Nat) (hclosed : ClosedE g l) :
    ∀ (k : Nat), k ≤ l.length →
    ∀ (j : Nat) (hj : j < l.length), j < k → ¬ reachesCycle g (l.get ⟨j, hj⟩) →
    l.get ⟨j, hj⟩ ∈ (l.take k).foldl (taintStep g) ∅ := by
  intro k
  induction k with
  | zero => intro _ j hj hjk; omega
  | succ k ih =>
    intro hk1 j hj hjk hsafe
    have hkl : k < l.length := by omega
    have htake : l.take (k + 1) = l.take k ++ [l.get ⟨k, hkl⟩] := by
      rw [List.take_succ, List.getElem?_eq_getElem hkl]
      rfl
    rw [htake, List.foldl_append]
    simp only [List.foldl_cons, List.foldl_nil]
    by_cases hjk' : j < k
    · exact taintStep_mono g _ _ (ih (by omega) j hj hjk' hsafe)
    · have hjeq : j = k := by omega
      subst hjeq
      apply taintStep_complete
      intro d hd
      rcases hclosed j hj d hd with hmem | hreach
      · obtain ⟨j', hj', hj'k, hget⟩ := mem_take_get hmem
        have hdsafe : ¬ reachesCycle g (l.get ⟨j', hj'⟩) := by
          rw [hget]
          intro hdc
          exact hsafe (reachesCycle_of_edge (show edge g _ d from hd) hdc)
        have := ih (by omega) j' hj' hj'k hdsafe
        rwa [hget] at this
      · exact absurd (reachesCycle_of_loop (show edge g _ d from hd) hreach) hsafe

/-- Claim C2: the taint pass returns `none` exactly for acyclic graphs, and
otherwise returns exactly the set of node ids that lie on a cycle or
transitively depend on one. -/
theorem detectCycles_spec (g : Graph) (hwf : WF g) :
    (get_cycling_dependencies g (get_sorted_dependencies g) = none ↔ Acyclic g) ∧
    (∀ s, get_cycling_dependencies g (get_sorted_dependencies g) = some s →
      ∀ u, u ∈ s ↔ (u < g.length ∧ reachesCycle g u)) := by
  obtain ⟨hnd, hclosed, hbound, hvis⟩ := get_sorted_dependencies_spec g
  have hlfin : (get_sorted_dependencies g).toFinset = Finset.range g.length :=
    sorted_toFinset_eq hwf
  have hlen : (get_sorted_dependencies g).length = g.length := by
    have h1 : (get_sorted_dependencies g).toFinset.card = (get_sorted_dependencies g).length :=
      List.toFinset_card_of_nodup hnd
    rw [hlfin, Finset.card_range] at h1
    omega
  have hTsafe : ∀ x ∈ taintFold g (get_sorted_dependencies g), ¬ reachesCycle g x :=
    foldl_taintStep_safe g _ ∅ (by intro x hx; cases hx)
  have hTsub : taintFold g (get_sorted_dependencies g) ⊆ Finset.range g.length := by
    intro x hx
    have hx1 := foldl_taintStep_bound g (get_sorted_dependencies g) ∅ hx
    rcases Finset.mem_union.1 hx1 with hx2 | hx3
    · rcases Finset.mem_union.1 hx2 with hx4 | hx5
      · cases Finset.not_mem_empty x hx4
      · rw [← hlfin]; exact hx5
    · rw [← gUniv_eq_range hwf]
      exact Finset.mem_union_right _ hx3
  have hmemT : ∀ u, u ∈ taintFold g (get_sorted_dependencies g) ↔
      (u < g.length ∧ ¬ reachesCycle g u) := by
    intro u
    constructor
    · intro hu
      exact ⟨Finset.mem_range.1 (hTsub hu), hTsafe u hu⟩
    · rintro ⟨hul, hsafe⟩
      have humem : u ∈ get_sorted_dependencies g := hvis u hul
      obtain ⟨⟨j, hjl⟩, hget⟩ := List.mem_iff_get.1 humem
      have hres := taint_covers g (get_sorted_dependencies g) hclosed
        (get_sorted_dependencies g).length (le_refl _) j hjl hjl (by rw [hget]; exact hsafe)
      rw [List.take_length] at hres
      rw [hget] at hres
      exact hres
  have hcard_iff : (taintFold g (get_sorted_dependencies g)).card =
      (get_sorted_dependencies g).length ↔ Acyclic g := by
    constructor
    · intro hc
      have hTeq : taintFold g (get_sorted_dependencies g) = Finset.range g.length :=
        Finset.eq_of_subset_of_card_le hTsub (by rw [hc, hlen, Finset.card_range])
      rw [acyclic_iff_all_safe]
      intro u hcyc
      have hu : u < g.length := reachesCycle_lt hcyc
      have : u ∈ taintFold g (get_sorted_dependencies g) := by
        rw [hTeq]; exact Finset.mem_range.2 hu
      exact hTsafe u this hcyc
    · intro hacy
      have hall : ∀ u, ¬ reachesCycle g u := (acyclic_iff_all_safe g).1 hacy
      have hTeq : taintFold g (get_sorted_dependencies g) = Finset.range g.length := by
        apply Finset.Subset.antisymm hTsub
        intro u hu
        exact (hmemT u).2 ⟨Finset.mem_range.1 hu, hall u⟩
      rw [hTeq, Finset.card_range, hlen]
  constructor
  · unfold get_cycling_dependencies
    by_cases hc : (taintFold g (get_sorted_dependencies g)).card =
        (get_sorted_dependencies g).length
    · rw [if_pos hc]
      simp only [true_iff]
      exact hcard_iff.1 hc
    · rw [if_neg hc]
      constructor
      · intro hcon; cases hcon
      · intro hacy; exact absurd (hcard_iff.2 hacy) hc
  · intro s hs u
    unfold get_cycling_dependencies at hs
    by_cases hc : (taintFold g (get_sorted_dependencies g)).card =
        (get_sorted_dependencies g).length
    · rw [if_pos hc] at hs; cases hs
    · rw [if_neg hc] at hs
      have hseq : s = (get_sorted_dependencies g).toFinset \
          taintFold g (get_sorted_dependencies g) := (Option.some_inj.1 hs).symm
      rw [hseq, Finset.mem_sdiff, hlfin, Finset.mem_range]
      constructor
      · rintro ⟨hul, hnT⟩
        refine ⟨hul, ?_⟩
        by_contra hsafe
        exact hnT ((hmemT u).2 ⟨hul, hsafe⟩)
      · rintro ⟨hul, hcyc⟩
        refine ⟨hul, fun hT => ?_⟩
        exact ((hmemT u).1 hT).2 hcyc

/-! ## Concrete graphs for the witnesses -/

theorem acyclic_chain3 : Acyclic [[], [0], [1]] := by
  have hleaf : nbrs [[], [0], [1]] 0 = [] := rfl
  intro u v he hr
  have hu : u < 3 := edge_lt he
  unfold edge at he
  interval_cases u
  · rw [hleaf] at he
    exact absurd he (List.not_mem_nil v)
  · rw [show nbrs [[], [0], [1]] 1 = [0] from rfl, List.mem_singleton] at he
    subst he
    exact absurd (reach_leaf hleaf hr) (by decide)
  · rw [show nbrs [[], [0], [1]] 2 = [1] from rfl, List.mem_singleton] at he
    subst he
    rcases hr.cases_head with heq | ⟨c, hc, hcr⟩
    · exact absurd heq (by decide)
    · unfold edge at hc
      rw [show nbrs [[], [0], [1]] 1 = [0] from rfl, List.mem_singleton] at hc
      subst hc
      exact absurd (reach_leaf hleaf hcr) (by decide)

/-- Witness for C1 at the chain roster A, B deps A, C deps B: node 1 depends
on node 0, node 1 sits at position 1 of the computed order, and node 0 indeed
appears strictly earlier. -/
theorem sortedOrder_respects_dependencies_witness :
    WF [[], [0], [1]] ∧ edge [[], [0], [1]] 1 0 ∧
    (∃ (j : Nat) (hj : j < (get_sorted_dependencies [[], [0], [1]]).length), j < 1 ∧
      (get_sorted_dependencies [[], [0], [1]]).get ⟨j, hj⟩ = 0) :=
  ⟨by decide, by decide,
    sortedOrder_respects_dependencies [[], [0], [1]] (by decide) acyclic_chain3 1 0
      (by decide) 1 (by decide) (by decide)⟩

/-- Witness for C2 at the two-node cycle roster `{A: deps=[B], B: deps=[A]}`
(ids A = 0, B = 1): the detector reports a set, and that set contains both
nodes. -/
theorem detectCycles_spec_witness :
    WF [[1], [0]] ∧
    get_cycling_dependencies [[1], [0]] (get_sorted_dependencies [[1], [0]]) = some {1, 0} ∧
    (∀ s, get_cycling_dependencies [[1], [0]] (get_sorted_dependencies [[1], [0]]) = some s →
      0 ∈ s ∧ 1 ∈ s) := by
  refine ⟨by decide, by decide, ?_⟩
  intro s hs
  have h := (detectCycles_spec [[1], [0]] (by decide)).2 s hs
  constructor
  · exact (h 0).2 ⟨by decide,
      0, 1, Relation.ReflTransGen.refl, by decide, Relation.ReflTransGen.single (by decide)⟩
  · exact (h 1).2 ⟨by decide,
      1, 0, Relation.ReflTransGen.refl, by decide, Relation.ReflTransGen.single (by decide)⟩

/-! ## Graph construction failure on unknown dependencies -/

theorem idxOf_none_iff (names : List String) (d : String) :
    idxOf names d = none ↔ d ∉ names := by
  induction names with
  | nil => simp [idxOf]
  | cons x xs ih =>
    simp only [idxOf]
    by_cases hx : x = d
    · rw [if_pos hx]
      have hmem : d ∈ x :: xs := by rw [hx]; exact List.mem_cons_self d xs
      constructor
      · intro h; cases h
      · intro h; exact absurd hmem h
    · rw [if_neg hx]
      have hmap : (idxOf xs d).map (· + 1) = none ↔ idxOf xs d = none := by
        cases idxOf xs d <;> simp
      rw [hmap, ih, List.mem_cons]
      constructor
      · intro h hc
        rcases hc with hc | hc
        · exact hx hc.symm
        · exact h hc
      · intro h
        exact fun hc => h (Or.inr hc)

theorem depIds_ok_of_all (names : List String) (c : String) :
    ∀ ds : List String, (∀ d ∈ ds, d ∈ names) → ∃ ids, depIds names c ds = .ok ids := by
  intro ds
  induction ds with
  | nil => intro _; exact ⟨[], rfl⟩
  | cons d ds ih =>
    intro h
    obtain ⟨ids, hids⟩ := ih (fun d' hd' => h d' (List.mem_cons_of_mem _ hd'))
    have hd : d ∈ names := h d (List.mem_cons_self _ _)
    cases hidx : idxOf names d with
    | none => exact absurd ((idxOf_none_iff names d).1 hidx) (fun hno => hno hd)
    | some i =>
      refine ⟨i :: ids, ?_⟩
      unfold depIds
      rw [hidx, hids]
      rfl

theorem depIds_error_of_missing (names : List String) (c : String) :
    ∀ ds : List String, (∃ d ∈ ds, d ∉ names) →
    ∃ d, depIds names c ds = .error (c, d) ∧ d ∈ ds ∧ d ∉ names := by
  intro ds
  induction ds with
  | nil => rintro ⟨d, hd, _⟩; cases hd
  | cons d0 ds ih =>
    rintro hex
    cases hidx : idxOf names d0 with
    | none =>
      refine ⟨d0, ?_, List.mem_cons_self _ _, (idxOf_none_iff names d0).1 hidx⟩
      unfold depIds
      rw [hidx]
    | some i =>
      have hd0 : d0 ∈ names := by
        by_contra hno
        rw [← idxOf_none_iff names d0] at hno
        rw [hno] at hidx
        cases hidx
      have hex' : ∃ d ∈ ds, d ∉ names := by
        rcases hex with ⟨d, hd, hdn⟩
        rcases List.mem_cons.1 hd with rfl | hd'
        · exact absurd hd0 hdn
        · exact ⟨d, hd', hdn⟩
      obtain ⟨d, herr, hd, hdn⟩ := ih hex'
      refine ⟨d, ?_, List.mem_cons_of_mem _ hd, hdn⟩
      unfold depIds
      rw [hidx, herr]
      rfl

theorem buildGraphGo_error (names : List String) :
    ∀ (contracts : List (String × ContractConfig)) (g : Graph),
    (∃ p ∈ contracts, ∃ d ∈ p.2.depends_on, d ∉ names) →
    ∃ c d, buildGraphGo names g contracts = .error (c, d) ∧
      (∃ cfg, (c, cfg) ∈ contracts ∧ d ∈ cfg.depends_on) ∧ d ∉ names := by
  intro contracts
  induction contracts with
  | nil => rintro g ⟨p, hp, _⟩; cases hp
  | cons p0 rest ih =>
    rintro g hex
    obtain ⟨c0, cfg0⟩ := p0
    by_cases hmiss : ∃ d ∈ cfg0.depends_on, d ∉ names
    · obtain ⟨d, herr, hd, hdn⟩ := depIds_error_of_missing names c0 cfg0.depends_on hmiss
      refine ⟨c0, d, ?_, ⟨cfg0, List.mem_cons_self _ _, hd⟩, hdn⟩
      unfold buildGraphGo
      rw [herr]
    · push_neg at hmiss
      obtain ⟨ids, hok⟩ := depIds_ok_of_all names c0 cfg0.depends_on hmiss
      have hex' : ∃ p ∈ rest, ∃ d ∈ p.2.depends_on, d ∉ names := by
        rcases hex with ⟨p, hp, d, hd, hdn⟩
        rcases List.mem_cons.1 hp with rfl | hp'
        · exact absurd (hmiss d hd) hdn
        · exact ⟨p, hp', d, hd, hdn⟩
      obtain ⟨c, d, herr, ⟨cfg, hcfg, hd⟩, hdn⟩ := ih (g ++ [ids]) hex'
      refine ⟨c, d, ?_, ⟨cfg, List.mem_cons_of_mem _ hcfg, hd⟩, hdn⟩
      unfold buildGraphGo
      rw [hok]
      exact herr

/-- Claim C5: a roster in which some artifact names a dependency absent from
the roster makes `ordered_contracts` fail during graph construction, with the
failure naming a genuinely missing (dependent, dependency) pair; no sorted
order is ever produced. -/
theorem build_fails_on_unknown_dependency (contracts : List (String × ContractConfig))
    (iter : Finset Nat → List Nat)
    (hmiss : ∃ p ∈ contracts, ∃ d ∈ p.2.depends_on, d ∉ contracts.map Prod.fst) :
    ∃ c d, ordered_contracts contracts iter = .error (.unknownDependency c d) ∧
      (∃ cfg, (c, cfg) ∈ contracts ∧ d ∈ cfg.depends_on) ∧
      d ∉ contracts.map Prod.fst := by
  obtain ⟨c, d, herr, hmem, hdn⟩ :=
    buildGraphGo_error (contracts.map Prod.fst) contracts [] hmiss
  refine ⟨c, d, ?_, hmem, hdn⟩
  unfold ordered_contracts buildGraph
  rw [herr]

/-- Witness for C5 at the roster `{A: deps=[Z]}` with no `Z` defined: the run
aborts with the unknown-dependency failure naming ("A", "Z"). -/
theorem build_fails_on_unknown_dependency_witness :
    (∃ p ∈ [("A", ContractConfig.mk "contracts/a.clar" ["Z"])],
      ∃ d ∈ p.2.depends_on,
        d ∉ [("A", ContractConfig.mk "contracts/a.clar" ["Z"])].map Prod.fst) ∧
    (∃ c d, ordered_contracts [("A", ContractConfig.mk "contracts/a.clar" ["Z"])]
        (fun _ => []) = .error (.unknownDependency c d) ∧
      (∃ cfg, (c, cfg) ∈ [("A", ContractConfig.mk "contracts/a.clar" ["Z"])] ∧
        d ∈ cfg.depends_on) ∧
      d ∉ [("A", ContractConfig.mk "contracts/a.clar" ["Z"])].map Prod.fst) ∧
    ordered_contracts [("A", ContractConfig.mk "contracts/a.clar" ["Z"])] (fun _ => []) =
      .error (.unknownDependency "A" "Z") :=
  ⟨by decide,
    build_fails_on_unknown_dependency _ (fun _ => []) (by decide),
    by decide⟩

/-! ## Cycle-report ordering (claim C8)

The Rust code materialises the set of untainted ids by iterating a std
`HashSet` (`nodes.difference(&tainted)`), whose iteration order depends on the
per-process random hasher state.  Two admissible iteration orders of the very
same set produce different reported name sequences, so the reported order is
not a function of the roster. -/

/-- Claim C8 fails on the code: for the two-contract cycle roster, the
detector's result set admits two legal hash-set iteration orders whose
reported name sequences differ, so two runs of cycle detection on the same
roster need not produce the same reported sequence of names. -/
theorem cycle_report_order_not_deterministic :
    ∃ (s : Finset Nat) (o₁ o₂ : List Nat),
      buildGraph [("A", ContractConfig.mk "contracts/a.clar" ["B"]),
        ("B", ContractConfig.mk "contracts/b.clar" ["A"])] = .ok [[1], [0]] ∧
      get_cycling_dependencies [[1], [0]] (get_sorted_dependencies [[1], [0]]) = some s ∧
      admissibleIter s o₁ ∧ admissibleIter s o₂ ∧
      cycle_report [("A", ContractConfig.mk "contracts/a.clar" ["B"]),
        ("B", ContractConfig.mk "contracts/b.clar" ["A"])] o₁ ≠
        cycle_report [("A", ContractConfig.mk "contracts/a.clar" ["B"]),
          ("B", ContractConfig.mk "contracts/b.clar" ["A"])] o₂ :=
  ⟨{1, 0}, [0, 1], [1, 0], by decide, by decide, by decide, by decide, by decide⟩

/-! ## Map and signer-resolution lemmas -/

theorem mapGet_insert_self {α : Type} (m : List (String × α)) (k : String) (v : α) :
    mapGet (mapInsert m k v) k = some v := by
  unfold mapGet mapInsert
  rw [List.find?_cons_of_pos _ (by simp)]
  rfl

theorem mapGet_insert_ne {α : Type} (m : List (String × α)) (k k' : String) (v : α)
    (h : k' ≠ k) : mapGet (mapInsert m k v) k' = mapGet m k' := by
  unfold mapGet mapInsert
  rw [List.find?_cons_of_neg _ (by
    simp only [beq_iff_eq]
    exact fun he => h he.symm)]

theorem mapGet_nil {α : Type} (k : String) : mapGet ([] : List (String × α)) k = none := rfl

theorem deployersLookup_go_star (accounts : List Account) :
    ∀ m, mapGet (accounts.foldl
        (fun m a => if a.name = "deployer" then mapInsert m "*" a else m) m) "*" =
      match lastDeployer accounts with
      | some d => some d
      | none => mapGet m "*" := by
  induction accounts with
  | nil => intro m; rfl
  | cons a rest ih =>
    intro m
    simp only [List.foldl_cons, lastDeployer]
    rw [ih]
    cases hld : lastDeployer rest with
    | some d => rfl
    | none =>
      by_cases ha : a.name = "deployer"
      · rw [if_pos ha, if_pos ha, mapGet_insert_self]
      · rw [if_neg ha, if_neg ha]

theorem mapGet_deployersLookup_star (accounts : List Account) :
    mapGet (deployersLookup accounts) "*" = lastDeployer accounts := by
  unfold deployersLookup
  rw [deployersLookup_go_star accounts []]
  cases lastDeployer accounts <;> rfl

theorem deployersLookup_go_ne_star (accounts : List Account) (k : String) (h : k ≠ "*") :
    ∀ m, mapGet m k = none →
    mapGet (accounts.foldl
      (fun m a => if a.name = "deployer" then mapInsert m "*" a else m) m) k = none := by
  induction accounts with
  | nil => intro m hm; exact hm
  | cons a rest ih =>
    intro m hm
    simp only [List.foldl_cons]
    refine ih _ ?_
    by_cases ha : a.name = "deployer"
    · rw [if_pos ha, mapGet_insert_ne _ _ _ _ h]; exact hm
    · rw [if_neg ha]; exact hm

theorem mapGet_deployersLookup_ne_star (accounts : List Account) (k : String) (h : k ≠ "*") :
    mapGet (deployersLookup accounts) k = none :=
  deployersLookup_go_ne_star accounts k h [] rfl

theorem lastDeployer_mem {accounts : List Account} {d : Account}
    (h : lastDeployer accounts = some d) : d ∈ accounts ∧ d.name = "deployer" := by
  induction accounts with
  | nil => cases h
  | cons a rest ih =>
    unfold lastDeployer at h
    cases hld : lastDeployer rest with
    | some d' =>
      rw [hld] at h
      obtain ⟨hmem, hname⟩ := ih (hld.trans (by rw [Option.some_inj.1 h]))
      exact ⟨List.mem_cons_of_mem _ hmem, hname⟩
    | none =>
      rw [hld] at h
      by_cases ha : a.name = "deployer"
      · rw [if_pos ha] at h
        rw [← Option.some_inj.1 h]
        exact ⟨List.mem_cons_self _ _, ha⟩
      · rw [if_neg ha] at h
        cases h

theorem resolve_eq_last {accounts : List Account} {cn : String} {d : Account}
    (h : resolveDeployer (deployersLookup accounts) cn = .ok d) :
    lastDeployer accounts = some d := by
  unfold resolveDeployer at h
  by_cases hstar : cn = "*"
  · subst hstar
    rw [mapGet_deployersLookup_star] at h
    cases hld : lastDeployer accounts with
    | some d' =>
      rw [hld] at h
      have h' : Except.ok (ε := DeployError) d' = .ok d := h
      exact congrArg some (Except.ok.inj h')
    | none =>
      rw [hld] at h
      have h' : Except.error (α := Account) DeployError.missingDeployer = .ok d := h
      exact Except.noConfusion h'
  · rw [mapGet_deployersLookup_ne_star accounts cn hstar] at h
    rw [mapGet_deployersLookup_star] at h
    cases hld : lastDeployer accounts with
    | some d' =>
      rw [hld] at h
      have h' : Except.ok (ε := DeployError) d' = .ok d := h
      exact congrArg some (Except.ok.inj h')
    | none =>
      rw [hld] at h
      have h' : Except.error (α := Account) DeployError.missingDeployer = .ok d := h
      exact Except.noConfusion h'

/-- Claim C6: the signer of an artifact is the explicit `deployers_lookup`
entry for the artifact when present, else the account named "deployer" from
the roster; when neither exists, resolution fails with the missing-deployer
error. -/
theorem signer_resolution_spec (accounts : List Account) (cn : String) :
    (∀ d, mapGet (deployersLookup accounts) cn = some d →
      resolveDeployer (deployersLookup accounts) cn = .ok d) ∧
    (mapGet (deployersLookup accounts) cn = none →
      ∀ d, lastDeployer accounts = some d →
        resolveDeployer (deployersLookup accounts) cn = .ok d ∧
          d.name = "deployer" ∧ d ∈ accounts) ∧
    (mapGet (deployersLookup accounts) cn = none → lastDeployer accounts = none →
      resolveDeployer (deployersLookup accounts) cn = .error .missingDeployer) := by
  refine ⟨?_, ?_, ?_⟩
  · intro d h
    unfold resolveDeployer
    rw [h]
  · intro hn d hd
    unfold resolveDeployer
    rw [hn, mapGet_deployersLookup_star, hd]
    exact ⟨rfl, (lastDeployer_mem hd).2, (lastDeployer_mem hd).1⟩
  · intro hn hld
    unfold resolveDeployer
    rw [hn, mapGet_deployersLookup_star, hld]

/-- Shared concrete material for the pipeline witnesses. -/
def witCrypto : Crypto :=
  ⟨fun _ _ => [], fun _ _ => [], fun k => k, fun k => k, fun _ _ => []⟩

def witAccount : Account :=
  ⟨"deployer", "ST1PQHQKV0RJXZFY1DGX8MNSNYVE3VGZJSRTPGZGM", "mnemonic words here",
    "m/44h/5757h/0h/0/0", 100⟩

/-- Witness for C6: with an account roster containing "deployer", an artifact
with no explicit assignment is signed by that account; with an empty roster,
resolution fails with the missing-deployer error. -/
theorem signer_resolution_spec_witness :
    mapGet (deployersLookup [witAccount]) "counter" = none ∧
    (resolveDeployer (deployersLookup [witAccount]) "counter" = .ok witAccount ∧
      witAccount.name = "deployer" ∧ witAccount ∈ [witAccount]) ∧
    resolveDeployer (deployersLookup []) "counter" = .error .missingDeployer :=
  ⟨by decide,
    (signer_resolution_spec [witAccount] "counter").2.1 (by decide) witAccount (by decide),
    (signer_resolution_spec [] "counter").2.2 (by decide) (by decide)⟩

/-! ## The deploy-step characterization

`deployStep_characterization` enumerates the possible outcomes of one
iteration of the deploy loop, with the exact states produced.  The run-level
claims (C3, C4, C7) are proved by induction from it. -/

/-- Number of recorded successes signed by account `n`. -/
def countFor (results : List DeployResult) (n : String) : Nat :=
  (results.filter (fun r => r.account == n)).length

/-- The transaction the deploy loop builds for contract `c` signed by `d`
with sequence number `nonce`. -/
def stepTx (cfg : DeployConfig) (d : Account) (cn : String) (c : InitialContract)
    (nonce : Nat) : StacksTransaction :=
  build_transaction cfg.crypto cn c.code (derive cfg.crypto d.mnemonic d.derivation).2
    (derive cfg.crypto d.mnemonic d.derivation).1 nonce

theorem countFor_nil (n : String) : countFor [] n = 0 := rfl

theorem countFor_append_self (results : List DeployResult) (r : DeployResult) (n : String)
    (h : r.account = n) : countFor (results ++ [r]) n = countFor results n + 1 := by
  unfold countFor
  rw [List.filter_append]
  simp [h]

theorem countFor_append_ne (results : List DeployResult) (r : DeployResult) (n : String)
    (h : r.account ≠ n) : countFor (results ++ [r]) n = countFor results n := by
  unfold countFor
  rw [List.filter_append]
  simp [h]

theorem deployStep_characterization (cfg : DeployConfig) (st : RunState)
    (c : InitialContract) :
    (c.name = none ∧ deployStep cfg st c = .error (st, .missingContractName)) ∨
    (∃ cn e, c.name = some cn ∧
      resolveDeployer (deployersLookup cfg.accounts) cn = .error e ∧
      deployStep cfg st c = .error (st, e)) ∨
    (∃ cn d nonce nonces1 queries1, c.name = some cn ∧
      resolveDeployer (deployersLookup cfg.accounts) cn = .ok d ∧
      ((mapGet st.nonces d.name = some nonce ∧ nonces1 = st.nonces ∧
          queries1 = st.queries) ∨
        (mapGet st.nonces d.name = none ∧ nonce = cfg.net.accountNonce d.address ∧
          nonces1 = mapInsert st.nonces d.name nonce ∧
          queries1 = st.queries ++ [(d.name, d.address)])) ∧
      ((cfg.net.broadcastOk st.submissions.length = true ∧
          deployStep cfg st c = .ok ⟨mapInsert nonces1 d.name (nonce + 1), queries1,
            st.submissions ++ [stepTx cfg d cn c nonce],
            st.results ++
              [⟨cn, d.name, d.address, cfg.net.txid st.submissions.length, nonce⟩]⟩) ∨
        (cfg.net.broadcastOk st.submissions.length = false ∧
          deployStep cfg st c = .error (⟨nonces1, queries1,
            st.submissions ++ [stepTx cfg d cn c nonce], st.results⟩,
            .rejectedTransaction)))) := by
  cases hname : c.name with
  | none =>
    left
    exact ⟨rfl, by simp only [deployStep, hname]⟩
  | some cn =>
    cases hres : resolveDeployer (deployersLookup cfg.accounts) cn with
    | error e =>
      right; left
      exact ⟨cn, e, rfl, hres, by simp only [deployStep, hname, hres]⟩
    | ok d =>
      right; right
      cases hcache : mapGet st.nonces d.name with
      | some n0 =>
        by_cases hb : cfg.net.broadcastOk st.submissions.length
        · refine ⟨cn, d, n0, st.nonces, st.queries, rfl, hres,
            Or.inl ⟨hcache, rfl, rfl⟩, Or.inl ⟨hb, ?_⟩⟩
          simp only [deployStep, hname, hres, hcache, if_pos hb, stepTx]
        · refine ⟨cn, d, n0, st.nonces, st.queries, rfl, hres,
            Or.inl ⟨hcache, rfl, rfl⟩, Or.inr ⟨Bool.eq_false_iff.2 hb, ?_⟩⟩
          simp only [deployStep, hname, hres, hcache, if_neg hb, stepTx]
      | none =>
        by_cases hb : cfg.net.broadcastOk st.submissions.length
        · refine ⟨cn, d, cfg.net.accountNonce d.address, _, _, rfl, hres,
            Or.inr ⟨hcache, rfl, rfl, rfl⟩, Or.inl ⟨hb, ?_⟩⟩
          simp only [deployStep, hname, hres, hcache, if_pos hb, stepTx]
        · refine ⟨cn, d, cfg.net.accountNonce d.address, _, _, rfl, hres,
            Or.inr ⟨hcache, rfl, rfl, rfl⟩, Or.inr ⟨Bool.eq_false_iff.2 hb, ?_⟩⟩
          simp only [deployStep, hname, hres, hcache, if_neg hb, stepTx]

/-! ## Nonce discipline (claim C3) -/

theorem get_append_lt {α : Type} (l : List α) (r : α) (j : Nat) (hj : j < l.length)
    (hj' : j < (l ++ [r]).length) : (l ++ [r]).get ⟨j, hj'⟩ = l.get ⟨j, hj⟩ := by
  simp only [List.get_eq_getElem]
  exact List.getElem_append_left hj

theorem get_append_last {α : Type} (l : List α) (r : α) (hj : l.length < (l ++ [r]).length) :
    (l ++ [r]).get ⟨l.length, hj⟩ = r := by
  simp only [List.get_eq_getElem]
  exact List.getElem_concat_length l r l.length rfl hj

structure NInv (cfg : DeployConfig) (st : RunState) : Prop where
  qnodup : (st.queries.map Prod.fst).Nodup
  cache : ∀ n v, mapGet st.nonces n = some v →
    ∃ a, (n, a) ∈ st.queries ∧ v = cfg.net.accountNonce a + countFor st.results n
  fresh : ∀ n, mapGet st.nonces n = none →
    (∀ a, (n, a) ∉ st.queries) ∧ countFor st.results n = 0
  resAcc : ∀ (j : Nat) (hj : j < st.results.length),
    ((st.results.get ⟨j, hj⟩).account, (st.results.get ⟨j, hj⟩).address) ∈ st.queries ∧
    (st.results.get ⟨j, hj⟩).nonce =
      cfg.net.accountNonce (st.results.get ⟨j, hj⟩).address +
        countFor (st.results.take j) (st.results.get ⟨j, hj⟩).account
  qsrc : ∀ p ∈ st.queries, ∃ d, lastDeployer cfg.accounts = some d ∧ p = (d.name, d.address)

/-- Case hypothesis shared by the success and failure shapes: the nonce was
either found in the cache or freshly queried and seeded. -/
def NonceCase (cfg : DeployConfig) (st : RunState) (d : Account) (nonce : Nat)
    (nonces1 : List (String × Nat)) (queries1 : List (String × String)) : Prop :=
  (mapGet st.nonces d.name = some nonce ∧ nonces1 = st.nonces ∧ queries1 = st.queries) ∨
  (mapGet st.nonces d.name = none ∧ nonce = cfg.net.accountNonce d.address ∧
    nonces1 = mapInsert st.nonces d.name nonce ∧
    queries1 = st.queries ++ [(d.name, d.address)])

theorem nonceCase_facts {cfg : DeployConfig} {st : RunState} {d : Account} {nonce : Nat}
    {nonces1 : List (String × Nat)} {queries1 : List (String × String)}
    (hd : lastDeployer cfg.accounts = some d) (hinv : NInv cfg st)
    (hcase : NonceCase cfg st d nonce nonces1 queries1) :
    (queries1.map Prod.fst).Nodup ∧
    mapGet nonces1 d.name = some nonce ∧
    (d.name, d.address) ∈ queries1 ∧
    nonce = cfg.net.accountNonce d.address + countFor st.results d.name ∧
    (∀ p ∈ st.queries, p ∈ queries1) ∧
    (∀ n, n ≠ d.name → mapGet nonces1 n = mapGet st.nonces n) ∧
    (∀ p ∈ queries1, ∃ d', lastDeployer cfg.accounts = some d' ∧ p = (d'.name, d'.address)) ∧
    (∀ n a, n ≠ d.name → ((n, a) ∈ queries1 ↔ (n, a) ∈ st.queries)) := by
  rcases hcase with ⟨hhit, rfl, rfl⟩ | ⟨hmiss, rfl, rfl, rfl⟩
  · obtain ⟨a, haq, hav⟩ := hinv.cache d.name nonce hhit
    obtain ⟨d0, hd0, hp⟩ := hinv.qsrc _ haq
    rw [hd] at hd0
    have hdd : d0 = d := (Option.some_inj.1 hd0).symm
    subst hdd
    have haddr : a = d0.address := congrArg Prod.snd hp
    subst haddr
    exact ⟨hinv.qnodup, hhit, haq, hav, fun p hp => hp, fun n _ => rfl, hinv.qsrc,
      fun n a _ => Iff.rfl⟩
  · have hnotin : ∀ a, (d.name, a) ∉ st.queries := (hinv.fresh d.name hmiss).1
    have hcount : countFor st.results d.name = 0 := (hinv.fresh d.name hmiss).2
    refine ⟨?_, ?_, ?_, ?_, ?_, ?_, ?_, ?_⟩
    · rw [List.map_append]
      refine List.Nodup.append hinv.qnodup (by simp) ?_
      intro x hx hx'
      simp only [List.map_cons, List.map_nil, List.mem_singleton] at hx'
      subst hx'
      obtain ⟨p, hp, hfst⟩ := List.mem_map.1 hx
      apply hnotin p.2
      have hpe : (d.name, p.2) = p := by rw [← hfst]
      rw [hpe]
      exact hp
    · exact mapGet_insert_self _ _ _
    · exact List.mem_append_right _ (List.mem_singleton_self _)
    · rw [hcount]
      omega
    · exact fun p hp => List.mem_append_left _ hp
    · exact fun n hn => mapGet_insert_ne _ _ _ _ hn
    · intro p hp
      rcases List.mem_append.1 hp with hp | hp
      · exact hinv.qsrc p hp
      · rw [List.mem_singleton] at hp
        exact ⟨d, hd, hp⟩
    · intro n a hn
      constructor
      · intro hmem
        rcases List.mem_append.1 hmem with hmem | hmem
        · exact hmem
        · rw [List.mem_singleton] at hmem
          exact absurd (congrArg Prod.fst hmem) hn
      · exact fun hmem => List.mem_append_left _ hmem

theorem NInv_fail {cfg : DeployConfig} {st : RunState} {d : Account} {nonce : Nat}
    {nonces1 : List (String × Nat)} {queries1 : List (String × String)}
    (subs : List StacksTransaction)
    (hd : lastDeployer cfg.accounts = some d) (hinv : NInv cfg st)
    (hcase : NonceCase cfg st d nonce nonces1 queries1) :
    NInv cfg ⟨nonces1, queries1, subs, st.results⟩ := by
  obtain ⟨hnodup, hget, hpair, hval, hmono, hne, hsrc, hiff⟩ := nonceCase_facts hd hinv hcase
  refine ⟨hnodup, ?_, ?_, ?_, hsrc⟩
  · intro n v hn
    by_cases hnd : n = d.name
    · subst hnd
      rw [hget] at hn
      exact ⟨d.address, hpair, by rw [← Option.some_inj.1 hn]; exact hval⟩
    · rw [hne n hnd] at hn
      obtain ⟨a, haq, hav⟩ := hinv.cache n v hn
      exact ⟨a, hmono _ haq, hav⟩
  · intro n hn
    by_cases hnd : n = d.name
    · subst hnd
      rw [hget] at hn
      cases hn
    · rw [hne n hnd] at hn
      obtain ⟨hnq, hcnt⟩ := hinv.fresh n hn
      exact ⟨fun a ha => hnq a ((hiff n a hnd).1 ha), hcnt⟩
  · intro j hj
    obtain ⟨hq, hv⟩ := hinv.resAcc j hj
    exact ⟨hmono _ hq, hv⟩

theorem NInv_success {cfg : DeployConfig} {st : RunState} {d : Account} {nonce : Nat}
    {nonces1 : List (String × Nat)} {queries1 : List (String × String)}
    (cn tid : String) (subs : List StacksTransaction)
    (hd : lastDeployer cfg.accounts = some d) (hinv : NInv cfg st)
    (hcase : NonceCase cfg st d nonce nonces1 queries1) :
    NInv cfg ⟨mapInsert nonces1 d.name (nonce + 1), queries1, subs,
      st.results ++ [⟨cn, d.name, d.address, tid, nonce⟩]⟩ := by
  obtain ⟨hnodup, hget, hpair, hval, hmono, hne, hsrc, hiff⟩ := nonceCase_facts hd hinv hcase
  have hracc : (DeployResult.mk cn d.name d.address tid nonce).account = d.name := rfl
  refine ⟨hnodup, ?_, ?_, ?_, hsrc⟩
  · intro n v hn
    by_cases hnd : n = d.name
    · subst hnd
      rw [mapGet_insert_self] at hn
      refine ⟨d.address, hpair, ?_⟩
      rw [← Option.some_inj.1 hn, countFor_append_self _ _ _ hracc]
      omega
    · rw [mapGet_insert_ne _ _ _ _ hnd, hne n hnd] at hn
      obtain ⟨a, haq, hav⟩ := hinv.cache n v hn
      refine ⟨a, hmono _ haq, ?_⟩
      rw [countFor_append_ne _ _ _ (by rw [hracc]; exact fun he => hnd he.symm)]
      exact hav
  · intro n hn
    by_cases hnd : n = d.name
    · subst hnd
      rw [mapGet_insert_self] at hn
      cases hn
    · rw [mapGet_insert_ne _ _ _ _ hnd, hne n hnd] at hn
      obtain ⟨hnq, hcnt⟩ := hinv.fresh n hn
      refine ⟨fun a ha => hnq a ((hiff n a hnd).1 ha), ?_⟩
      rw [countFor_append_ne _ _ _ (by rw [hracc]; exact fun he => hnd he.symm)]
      exact hcnt
  · intro j hj
    have hlen : (st.results ++ [DeployResult.mk cn d.name d.address tid nonce]).length =
        st.results.length + 1 := by simp
    have hj2 : j < st.results.length + 1 := by simpa using hj
    by_cases hjl : j < st.results.length
    · rw [get_append_lt st.results _ j hjl hj]
      obtain ⟨hq, hv⟩ := hinv.resAcc j hjl
      refine ⟨hmono _ hq, ?_⟩
      rw [List.take_append_of_le_length (Nat.le_of_lt hjl)]
      exact hv
    · have hjeq : j = st.results.length := by omega
      subst hjeq
      rw [get_append_last st.results _ hj]
      refine ⟨hpair, ?_⟩
      rw [List.take_left]
      exact hval

theorem NInv_step (cfg : DeployConfig) (st : RunState) (c : InitialContract)
    (hinv : NInv cfg st) :
    (∀ st', deployStep cfg st c = .ok st' → NInv cfg st') ∧
    (∀ st' e, deployStep cfg st c = .error (st', e) → NInv cfg st') := by
  rcases deployStep_characterization cfg st c with
    ⟨_, hstep⟩ | ⟨cn, e, _, _, hstep⟩ |
    ⟨cn, d, nonce, nonces1, queries1, _, hres, hcase, ⟨_, hstep⟩ | ⟨_, hstep⟩⟩
  · constructor
    · intro st' h; rw [hstep] at h; cases h
    · intro st' e h
      rw [hstep] at h
      have : st = st' := congrArg Prod.fst (Except.error.inj h)
      rw [← this]; exact hinv
  · constructor
    · intro st' h; rw [hstep] at h; cases h
    · intro st' e' h
      rw [hstep] at h
      have : st = st' := congrArg Prod.fst (Except.error.inj h)
      rw [← this]; exact hinv
  · constructor
    · intro st' h
      rw [hstep] at h
      rw [← Except.ok.inj h]
      exact NInv_success cn _ _ (resolve_eq_last hres) hinv hcase
    · intro st' e h; rw [hstep] at h; cases h
  · constructor
    · intro st' h; rw [hstep] at h; cases h
    · intro st' e h
      rw [hstep] at h
      obtain ⟨rfl, rfl⟩ := Prod.mk.inj (Except.error.inj h)
      exact NInv_fail _ (resolve_eq_last hres) hinv hcase

theorem NInv_run (cfg : DeployConfig) :
    ∀ (contracts : List InitialContract) (st : RunState), NInv cfg st →
    NInv cfg (deployContracts cfg st contracts).1 := by
  intro contracts
  induction contracts with
  | nil => intro st hinv; exact hinv
  | cons c rest ih =>
    intro st hinv
    simp only [deployContracts]
    cases hstep : deployStep cfg st c with
    | ok st' => exact ih st' ((NInv_step cfg st c hinv).1 st' hstep)
    | error p =>
      obtain ⟨st', e⟩ := p
      exact (NInv_step cfg st c hinv).2 st' e hstep

theorem NInv_init (cfg : DeployConfig) : NInv cfg initState := by
  refine ⟨List.nodup_nil, ?_, ?_, ?_, ?_⟩
  · intro n v h; cases h
  · intro n _
    exact ⟨fun a ha => List.not_mem_nil _ ha, rfl⟩
  · intro j hj; cases hj
  · intro p hp; cases hp

/-- Claim C3: in every run, each signing account's sequence number is fetched
from the network exactly once (the query log has no repeated account), every
recorded deployment uses the queried nonce plus the number of earlier
successes of the same account (so consecutive uses go 5 then 6), and the
cached value always equals the queried nonce plus the number of successful
submissions for that account — incremented by exactly one per success, never
decremented. -/
theorem nonce_discipline (cfg : DeployConfig) (contracts : List InitialContract) :
    (((deployContracts cfg initState contracts).1.queries.map Prod.fst).Nodup) ∧
    (∀ (j : Nat) (hj : j < (deployContracts cfg initState contracts).1.results.length),
      (((deployContracts cfg initState contracts).1.results.get ⟨j, hj⟩).account,
        ((deployContracts cfg initState contracts).1.results.get ⟨j, hj⟩).address) ∈
          (deployContracts cfg initState contracts).1.queries ∧
      ((deployContracts cfg initState contracts).1.results.get ⟨j, hj⟩).nonce =
        cfg.net.accountNonce
            (((deployContracts cfg initState contracts).1.results.get ⟨j, hj⟩).address) +
          countFor ((deployContracts cfg initState contracts).1.results.take j)
            (((deployContracts cfg initState contracts).1.results.get ⟨j, hj⟩).account)) ∧
    (∀ n v, mapGet (deployContracts cfg initState contracts).1.nonces n = some v →
      ∃ a, (n, a) ∈ (deployContracts cfg initState contracts).1.queries ∧
        v = cfg.net.accountNonce a +
          countFor (deployContracts cfg initState contracts).1.results n) := by
  have hinv := NInv_run cfg contracts initState (NInv_init cfg)
  exact ⟨hinv.qnodup, hinv.resAcc, hinv.cache⟩

/-! ## Halt on first failure (claim C4) -/

theorem deployStep_error_facts (cfg : DeployConfig) (st : RunState) (c : InitialContract)
    (stF : RunState) (e : DeployError) (h : deployStep cfg st c = .error (stF, e)) :
    stF.results = st.results ∧ stF.submissions.length ≤ st.submissions.length + 1 ∧
    (∀ n v, mapGet st.nonces n = some v → mapGet stF.nonces n = some v) := by
  rcases deployStep_characterization cfg st c with
    ⟨_, hstep⟩ | ⟨cn, e', _, _, hstep⟩ |
    ⟨cn, d, nonce, nonces1, queries1, _, hres, hcase, ⟨_, hstep⟩ | ⟨_, hstep⟩⟩
  · rw [hstep] at h
    obtain ⟨rfl, rfl⟩ := Prod.mk.inj (Except.error.inj h)
    exact ⟨rfl, Nat.le_succ _, fun n v hv => hv⟩
  · rw [hstep] at h
    obtain ⟨rfl, rfl⟩ := Prod.mk.inj (Except.error.inj h)
    exact ⟨rfl, Nat.le_succ _, fun n v hv => hv⟩
  · rw [hstep] at h; cases h
  · rw [hstep] at h
    obtain ⟨rfl, rfl⟩ := Prod.mk.inj (Except.error.inj h)
    refine ⟨rfl, by simp, ?_⟩
    intro n v hv
    rcases hcase with ⟨hhit, rfl, rfl⟩ | ⟨hmiss, rfl, rfl, rfl⟩
    · exact hv
    · by_cases hnd : n = d.name
      · subst hnd
        rw [hmiss] at hv
        cases hv
      · rw [mapGet_insert_ne _ _ _ _ hnd]
        exact hv

theorem deployStep_ok_facts (cfg : DeployConfig) (st : RunState) (c : InitialContract)
    (st' : RunState) (h : deployStep cfg st c = .ok st') :
    st'.submissions.length = st.submissions.length + 1 ∧
    st'.results.length = st.results.length + 1 := by
  rcases deployStep_characterization cfg st c with
    ⟨_, hstep⟩ | ⟨cn, e', _, _, hstep⟩ |
    ⟨cn, d, nonce, nonces1, queries1, _, hres, hcase, ⟨_, hstep⟩ | ⟨_, hstep⟩⟩
  · rw [hstep] at h; cases h
  · rw [hstep] at h; cases h
  · rw [hstep] at h
    rw [← Except.ok.inj h]
    constructor <;> simp
  · rw [hstep] at h; cases h

theorem run_ok_counts (cfg : DeployConfig) :
    ∀ (pre : List InitialContract) (st0 stPre : RunState),
    deployContracts cfg st0 pre = (stPre, none) →
    stPre.submissions.length = st0.submissions.length + pre.length ∧
    stPre.results.length = st0.results.length + pre.length := by
  intro pre
  induction pre with
  | nil =>
    intro st0 stPre h
    obtain ⟨rfl, _⟩ := Prod.mk.inj h.symm
    simp
  | cons c rest ih =>
    intro st0 stPre h
    simp only [deployContracts] at h
    cases hstep : deployStep cfg st0 c with
    | ok st1 =>
      rw [hstep] at h
      obtain ⟨hsub, hres⟩ := deployStep_ok_facts cfg st0 c st1 hstep
      obtain ⟨hsub', hres'⟩ := ih st1 stPre h
      constructor <;> simp only [List.length_cons] <;> omega
    | error p =>
      rw [hstep] at h
      exact absurd (congrArg Prod.snd h) (by simp)

/-- Claim C4: when the broadcast of some artifact fails, the run halts at
that artifact: the contract list splits into a successfully deployed prefix,
the failing contract, and a suffix that is never processed; the failing
step preserves the recorded successes of the prefix, makes at most one more
broadcast attempt, and advances no existing nonce-cache entry. -/
theorem halt_on_first_failure (cfg : DeployConfig) (contracts : List InitialContract)
    (st0 : RunState) (e : DeployError)
    (h : (deployContracts cfg st0 contracts).2 = some e) :
    ∃ pre c post stPre stF,
      contracts = pre ++ c :: post ∧
      deployContracts cfg st0 pre = (stPre, none) ∧
      deployStep cfg stPre c = .error (stF, e) ∧
      (deployContracts cfg st0 contracts).1 = stF ∧
      stF.results = stPre.results ∧
      stPre.results.length = st0.results.length + pre.length ∧
      stF.submissions.length ≤ st0.submissions.length + pre.length + 1 ∧
      (∀ n v, mapGet stPre.nonces n = some v → mapGet stF.nonces n = some v) := by
  induction contracts generalizing st0 with
  | nil => simp [deployContracts] at h
  | cons c rest ih =>
    simp only [deployContracts] at h ⊢
    cases hstep : deployStep cfg st0 c with
    | ok st1 =>
      rw [hstep] at h
      have h' : (deployContracts cfg st1 rest).2 = some e := h
      obtain ⟨pre, c', post, stPre, stF, hsplit, hpre, hfail, hfinal, hres, hcnt, hsub, hnon⟩ :=
        ih st1 h'
      obtain ⟨hsub1, hres1⟩ := deployStep_ok_facts cfg st0 c st1 hstep
      have hfinal' : (match (Except.ok st1 : Except (RunState × DeployError) RunState) with
          | Except.ok st' => deployContracts cfg st' rest
          | Except.error (st', e) => (st', some e)).1 = stF := hfinal
      refine ⟨c :: pre, c', post, stPre, stF, by rw [hsplit]; rfl, ?_, hfail, hfinal', hres,
        ?_, ?_, hnon⟩
      · simp only [deployContracts, hstep]
        exact hpre
      · simp only [List.length_cons]
        omega
      · simp only [List.length_cons]
        omega
    | error p =>
      obtain ⟨stF, e'⟩ := p
      rw [hstep] at h
      have h' : some e' = some e := h
      have he : e' = e := Option.some_inj.1 h'
      subst he
      obtain ⟨hres, hsub, hnon⟩ := deployStep_error_facts cfg st0 c stF e' hstep
      exact ⟨[], c, rest, st0, stF, rfl, rfl, hstep, rfl, hres, by simp, by simpa using hsub,
        hnon⟩

/-! ## Transaction shape (claim C7) -/

theorem build_transaction_fields (crypto : Crypto) (cn code : String)
    (pub priv : List Nat) (nonce : Nat) :
    (build_transaction crypto cn code pub priv nonce).anchor_mode = AnchorMode.any ∧
    (build_transaction crypto cn code pub priv nonce).post_condition_mode =
      PostConditionMode.deny ∧
    (build_transaction crypto cn code pub priv nonce).post_conditions = [] ∧
    (build_transaction crypto cn code pub priv nonce).payload =
      TxPayload.smartContract cn code ∧
    (build_transaction crypto cn code pub priv nonce).auth.tx_fee = 200 + code.utf8ByteSize ∧
    (build_transaction crypto cn code pub priv nonce).auth.nonce = nonce := by
  exact ⟨rfl, rfl, rfl, rfl, rfl, rfl⟩

theorem stepTx_shape (cfg : DeployConfig) (d : Account) (cn : String)
    (c : InitialContract) (nonce : Nat) (contracts : List InitialContract)
    (hc : c ∈ contracts) (hname : c.name = some cn) :
    (stepTx cfg d cn c nonce).anchor_mode = AnchorMode.any ∧
    (stepTx cfg d cn c nonce).post_condition_mode = PostConditionMode.deny ∧
    (stepTx cfg d cn c nonce).post_conditions = [] ∧
    ∃ name code, (stepTx cfg d cn c nonce).payload = TxPayload.smartContract name code ∧
      (stepTx cfg d cn c nonce).auth.tx_fee = 200 + code.utf8ByteSize ∧
      (∃ c' ∈ contracts, c'.name = some name ∧ c'.code = code) :=
  ⟨rfl, rfl, rfl, cn, c.code, rfl, rfl, c, hc, hname, rfl⟩

/-- Claim C7: every transaction a run broadcasts (beyond those already in the
starting state) has anchor mode `Any`, post-condition mode `Deny` with an
empty post-condition list, a smart-contract payload carrying the name and
full source of one of the processed contracts, and a fee of the base
constant 200 plus one unit per byte of that source. -/
theorem submitted_transaction_shape (cfg : DeployConfig) (contracts : List InitialContract)
    (st0 : RunState) (tx : StacksTransaction)
    (htx : tx ∈ (deployContracts cfg st0 contracts).1.submissions) :
    tx ∈ st0.submissions ∨
    (tx.anchor_mode = AnchorMode.any ∧ tx.post_condition_mode = PostConditionMode.deny ∧
      tx.post_conditions = [] ∧
      ∃ name code, tx.payload = TxPayload.smartContract name code ∧
        tx.auth.tx_fee = 200 + code.utf8ByteSize ∧
        (∃ c ∈ contracts, c.name = some name ∧ c.code = code)) := by
  induction contracts generalizing st0 with
  | nil => exact Or.inl htx
  | cons c rest ih =>
    simp only [deployContracts] at htx
    rcases deployStep_characterization cfg st0 c with
      ⟨_, hstep⟩ | ⟨cn, e, _, _, hstep⟩ |
      ⟨cn, d, nonce, nonces1, queries1, hname, hres, hcase, ⟨_, hstep⟩ | ⟨_, hstep⟩⟩
    · rw [hstep] at htx
      exact Or.inl htx
    · rw [hstep] at htx
      exact Or.inl htx
    · rw [hstep] at htx
      rcases ih _ htx with hmem | hshape
      · have hmem' : tx ∈ st0.submissions ++ [stepTx cfg d cn c nonce] := hmem
        rcases List.mem_append.1 hmem' with h1 | h1
        · exact Or.inl h1
        · rw [List.mem_singleton] at h1
          right
          rw [h1]
          exact stepTx_shape cfg d cn c nonce (c :: rest) (List.mem_cons_self _ _) hname
      · obtain ⟨h1, h2, h3, name, code, h4, h5, c', hc', h6, h7⟩ := hshape
        exact Or.inr ⟨h1, h2, h3, name, code, h4, h5, c',
          List.mem_cons_of_mem _ hc', h6, h7⟩
    · rw [hstep] at htx
      have htx' : tx ∈ st0.submissions ++ [stepTx cfg d cn c nonce] := htx
      rcases List.mem_append.1 htx' with h1 | h1
      · exact Or.inl h1
      · rw [List.mem_singleton] at h1
        right
        rw [h1]
        exact stepTx_shape cfg d cn c nonce (c :: rest) (List.mem_cons_self _ _) hname

/-! ## Key derivation (claim C9) -/

/-- Claim C9: key derivation in the deploy loop is a pure function of the
signer's mnemonic and derivation path — identical inputs yield the identical
keypair — the 512-bit seed is produced from the mnemonic with an empty
passphrase, and the public key is computed from the derived private key. -/
theorem key_derivation_deterministic (crypto : Crypto) (m p m' p' : String)
    (hm : m = m') (hp : p = p') :
    derive crypto m p = derive crypto m' p' ∧
    (derive crypto m p).1 = crypto.hdDerive (crypto.bip39Seed m "") p ∧
    (derive crypto m p).2 = crypto.pubOf ((derive crypto m p).1) := by
  subst hm
  subst hp
  exact ⟨rfl, rfl, rfl⟩

/-- Witness for C9 at a concrete crypto backend and account. -/
theorem key_derivation_deterministic_witness :
    derive witCrypto "abandon ability" "m/44h/5757h/0h/0/0" =
      derive witCrypto "abandon ability" "m/44h/5757h/0h/0/0" ∧
    (derive witCrypto "abandon ability" "m/44h/5757h/0h/0/0").1 =
      witCrypto.hdDerive (witCrypto.bip39Seed "abandon ability" "") "m/44h/5757h/0h/0/0" ∧
    (derive witCrypto "abandon ability" "m/44h/5757h/0h/0/0").2 =
      witCrypto.pubOf ((derive witCrypto "abandon ability" "m/44h/5757h/0h/0/0").1) :=
  key_derivation_deterministic witCrypto _ _ _ _ rfl rfl

/-! ## Concrete runs for the pipeline witnesses -/

def witNet : Network := ⟨fun _ => 5, fun _ => true, fun _ => "txid-ok"⟩

def witCfg : DeployConfig := ⟨[witAccount], witCrypto, witNet⟩

def witContracts : List InitialContract := [⟨some "A", "(a)"⟩, ⟨some "B", "(bb)"⟩]

def witNetFail : Network := ⟨fun _ => 5, fun k => k == 0, fun _ => "txid-ok"⟩

def witCfgFail : DeployConfig := ⟨[witAccount], witCrypto, witNetFail⟩

def witContracts3 : List InitialContract :=
  [⟨some "A", "(a)"⟩, ⟨some "B", "(bb)"⟩, ⟨some "C", "(c)"⟩]

/-- Witness for C3: two contracts signed by the same account whose initial
network query returns nonce 5 use sequence numbers 5 then 6, the account is
queried once, and the final cached value 7 = 5 + two successes. -/
theorem nonce_discipline_witness :
    mapGet (deployContracts witCfg initState witContracts).1.nonces "deployer" = some 7 ∧
    (∃ a, ("deployer", a) ∈ (deployContracts witCfg initState witContracts).1.queries ∧
      7 = witCfg.net.accountNonce a +
        countFor (deployContracts witCfg initState witContracts).1.results "deployer") ∧
    (deployContracts witCfg initState witContracts).1.results.map (fun r => r.nonce) =
      [5, 6] ∧
    (deployContracts witCfg initState witContracts).1.queries.map Prod.fst = ["deployer"] :=
  ⟨by decide, (nonce_discipline witCfg witContracts).2.2 "deployer" 7 (by decide),
    by decide, by decide⟩

/-- Witness for C4: with the second broadcast rejected, the run of three
contracts halts after the second attempt, the first contract's recorded
success is preserved, and the third contract is never attempted. -/
theorem halt_on_first_failure_witness :
    (deployContracts witCfgFail initState witContracts3).2 =
      some DeployError.rejectedTransaction ∧
    (∃ pre c post stPre stF,
      witContracts3 = pre ++ c :: post ∧
      deployContracts witCfgFail initState pre = (stPre, none) ∧
      deployStep witCfgFail stPre c = .error (stF, DeployError.rejectedTransaction) ∧
      (deployContracts witCfgFail initState witContracts3).1 = stF ∧
      stF.results = stPre.results ∧
      stPre.results.length = initState.results.length + pre.length ∧
      stF.submissions.length ≤ initState.submissions.length + pre.length + 1 ∧
      (∀ n v, mapGet stPre.nonces n = some v → mapGet stF.nonces n = some v)) ∧
    (deployContracts witCfgFail initState witContracts3).1.results.map (fun r => r.contract) =
      ["A"] ∧
    (deployContracts witCfgFail initState witContracts3).1.submissions.length = 2 :=
  ⟨by decide,
    halt_on_first_failure witCfgFail witContracts3 initState DeployError.rejectedTransaction
      (by decide),
    by decide, by decide⟩

/-- The first transaction broadcast by the witness run. -/
def witTx : StacksTransaction :=
  (deployContracts witCfg initState witContracts).1.submissions.headD
    (build_transaction witCrypto "" "" [] [] 0)

/-- Witness for C7: a concrete broadcast transaction of the witness run has
the mandated shape. -/
theorem submitted_transaction_shape_witness :
    witTx ∈ (deployContracts witCfg initState witContracts).1.submissions ∧
    (witTx ∈ initState.submissions ∨
      (witTx.anchor_mode = AnchorMode.any ∧
        witTx.post_condition_mode = PostConditionMode.deny ∧
        witTx.post_conditions = [] ∧
        ∃ name code, witTx.payload = TxPayload.smartContract name code ∧
          witTx.auth.tx_fee = 200 + code.utf8ByteSize ∧
          (∃ c ∈ witContracts, c.name = some name ∧ c.code = code))) :=
  ⟨by decide,
    submitted_transaction_shape witCfg witContracts initState witTx (by decide)⟩

end Clarinet
